import Mathlib

/-!
Verification of the ShogiView KIF parser / replay engine
(`src/kif-viewer.ts`) against its natural-language specification.

The TypeScript source is shallowly embedded: strings are `List Char`,
JS array indexing that may go out of range is modelled with `Option`
(`undefined` and `null` both collapse to `none` where the code only
tests truthiness), JS exceptions are modelled with `Except`, and the
mutable tree of `VariationLine` objects with parent back-pointers is
modelled as an arena (`List VariationLine`) addressed by index, the
root living at index 0.
-/

set_option maxRecDepth 4096

deriving instance DecidableEq for Except

/-- Sides: `B` = 先手 (first player), `W` = 後手 (second player). -/
inductive Side where
  | B
  | W
  deriving DecidableEq, Repr

/-- The fifteen piece identifiers of `type PieceKind` in the source. -/
inductive PieceKind where
  | fu      -- 歩
  | kyo     -- 香
  | kei     -- 桂
  | gin     -- 銀
  | kin     -- 金
  | kaku    -- 角
  | hi      -- 飛
  | gyoku   -- 玉
  | ou      -- 王
  | tokin   -- と
  | narikyo -- 成香
  | narikei -- 成桂
  | narigin -- 成銀
  | uma     -- 馬
  | ryu     -- 龍
  deriving DecidableEq, Repr

open Side PieceKind

/-- `promoteKind` from the source: promoted form of a kind, identity
when there is none. -/
def promoteKind : PieceKind → PieceKind
  | fu => tokin
  | kyo => narikyo
  | kei => narikei
  | gin => narigin
  | kaku => uma
  | hi => ryu
  | k => k

/-- `demoteKind` from the source: base form of a kind, identity when it
is already a base kind. -/
def demoteKind : PieceKind → PieceKind
  | tokin => fu
  | narikyo => kyo
  | narikei => kei
  | narigin => gin
  | uma => kaku
  | ryu => hi
  | k => k

/-- The six base kinds that have a promoted counterpart. -/
def promotableBase : List PieceKind := [fu, kyo, kei, gin, kaku, hi]

/-- The kinds with no promoted/demoted counterpart (gold and the two
kings). -/
def unpairedKinds : List PieceKind := [kin, gyoku, ou]

/-- `interface Piece` from the source. -/
structure Piece where
  side : Side
  kind : PieceKind
  deriving DecidableEq, Repr

/-- A board square `{f, r}` with file and rank; the parser can produce
digits `0`-`9` for a source square, so the components are plain `Nat`. -/
structure Sq where
  f : Nat
  r : Nat
  deriving DecidableEq, Repr

/-- A parsed move (`interface ParsedMove`); `variations` holds arena
indices of the variation lines branching after this move.  The TS
fields `to`/`from` are called `toSq`/`fromSq` (both are Lean
keywords). -/
structure ParsedMove where
  n : Nat
  toSq : Sq
  fromSq : Option Sq
  kind : Option PieceKind
  rawKind : List Char
  promoted : Bool
  promotionDeclined : Bool
  drop : Bool
  comment : Option (List Char)
  timestamp : Option (List Char)
  rawTo : Option (List Char)
  variations : List Nat
  deriving DecidableEq, Repr

/-- `interface VariationLine`; `parent` stores the parent line's arena
index and `anchorMoveCount`, and `leadVariations` stores arena
indices. -/
structure VariationLine where
  startMoveNumber : Nat
  moves : List ParsedMove
  parent : Option (Nat × Nat)
  leadVariations : List Nat
  deriving DecidableEq, Repr

/-! ### Character and string utilities (JS semantics, `List Char`) -/

/-- The JS `\s` / `trim` whitespace class (WhiteSpace + LineTerminator),
which notably includes the ideographic space U+3000. -/
def jsWs (c : Char) : Bool :=
  decide ((9 ≤ c.toNat ∧ c.toNat ≤ 13) ∨ c.toNat = 32 ∨ c.toNat = 0xa0 ∨
    c.toNat = 0x1680 ∨ (0x2000 ≤ c.toNat ∧ c.toNat ≤ 0x200a) ∨
    c.toNat = 0x2028 ∨ c.toNat = 0x2029 ∨ c.toNat = 0x202f ∨
    c.toNat = 0x205f ∨ c.toNat = 0x3000 ∨ c.toNat = 0xfeff)

/-- ASCII digit `0`-`9`. -/
def isDigitA (c : Char) : Bool := decide (48 ≤ c.toNat ∧ c.toNat ≤ 57)

/-- Value of a run of ASCII digits, as computed by `parseInt(_, 10)`. -/
def digitsVal (ds : List Char) : Nat :=
  ds.foldl (fun a c => 10 * a + (c.toNat - 48)) 0

/-- `String.prototype.trimEnd`. -/
def trimEndL (l : List Char) : List Char := (l.reverse.dropWhile jsWs).reverse

/-- `String.prototype.trimStart`. -/
def trimStartL (l : List Char) : List Char := l.dropWhile jsWs

/-- `String.prototype.trim`. -/
def trimL (l : List Char) : List Char := trimStartL (trimEndL l)

/-- Helper for `splitLines` (accumulator holds the current line
reversed). -/
def splitLinesAux : List Char → List Char → List (List Char)
  | acc, [] => [acc.reverse]
  | acc, '\r' :: '\n' :: rest => acc.reverse :: splitLinesAux [] rest
  | acc, '\n' :: rest => acc.reverse :: splitLinesAux [] rest
  | acc, c :: rest => splitLinesAux (c :: acc) rest

/-- `text.split(/\r?\n/)`. -/
def splitLines (l : List Char) : List (List Char) := splitLinesAux [] l

/-- Helper for `splitOnCh`. -/
def splitOnChAux (sep : Char) : List Char → List Char → List (List Char)
  | acc, [] => [acc.reverse]
  | acc, c :: rest =>
    if c = sep then acc.reverse :: splitOnChAux sep [] rest
    else splitOnChAux sep (c :: acc) rest

/-- `s.split(sep)` for a one-character separator. -/
def splitOnCh (sep : Char) (l : List Char) : List (List Char) :=
  splitOnChAux sep [] l

/-- `s.includes(c)` for a one-character needle. -/
def containsCh (l : List Char) (c : Char) : Bool := l.any (· == c)

/-! ### Numeral decoding (`jpDigitToNum`, `parseSquare`) -/

/-- `JP_NUM_FULL`. -/
def jpNumFull : List Char := "１２３４５６７８９".data

/-- `JP_NUM_KANJI`. -/
def jpNumKanji : List Char := "一二三四五六七八九".data

/-- `jpDigitToNum`: decodes a digit in one of the three alphabets,
throwing (`Except.error`) on anything else — including ASCII `'0'`,
for which `parseInt` yields `0` and the `n >= 1` guard fails. -/
def jpDigitToNumE (ch : Char) : Except (List Char) Nat :=
  match jpNumFull.findIdx? (· == ch) with
  | some i => .ok (i + 1)
  | none =>
    match jpNumKanji.findIdx? (· == ch) with
    | some i => .ok (i + 1)
    | none =>
      if isDigitA ch && decide (1 ≤ ch.toNat - 48) then .ok (ch.toNat - 48)
      else .error ("Invalid digit".data ++ [ch])

/-- `parseSquare`: decodes the first two characters of a token. -/
def parseSquareE (s : List Char) : Except (List Char) Sq :=
  match s with
  | c1 :: c2 :: _ => do
    let f ← jpDigitToNumE c1
    let r ← jpDigitToNumE c2
    .ok ⟨f, r⟩
  | _ => .error ("square short".data)

/-! ### Piece tokens -/

/-- The piece-name alternation of `piecePattern`, in source order
(longest promoted names first), paired with the `PieceKind` each name
denotes in the `switch` of `parsePieceToken`. -/
def pieceNames : List (List Char × PieceKind) :=
  [("成香".data, narikyo), ("成桂".data, narikei), ("成銀".data, narigin),
   ("馬".data, uma), ("龍".data, ryu), ("と".data, tokin), ("歩".data, fu),
   ("香".data, kyo), ("桂".data, kei), ("銀".data, gin), ("金".data, kin),
   ("角".data, kaku), ("飛".data, hi), ("玉".data, gyoku), ("王".data, ou)]

/-- The directional disambiguator glyphs of `PIECE_DIRECTIONS_RE`. -/
def isDirCh (c : Char) : Bool := ['右', '左', '直', '上', '引', '寄'].contains c

/-- `l` ends with `suf`. -/
def endsWithL (suf l : List Char) : Bool := suf.reverse.isPrefixOf l.reverse

/-- Result of `parsePieceToken`. -/
structure PieceTokenInfo where
  kind : PieceKind
  raw : List Char
  promoted : Bool
  promotionDeclined : Bool
  deriving DecidableEq, Repr

/-- `parsePieceToken`: strips a trailing `不成` (declined) or `成`
(promoted) suffix, removes directional glyphs, matches the remainder
against the closed set of piece names, and resolves promotion (a
promotion that is the identity clears the `promoted` flag). -/
def parsePieceToken (token : List Char) : Option PieceTokenInfo :=
  if token.isEmpty then none
  else
    let (working1, promoted, declined) :=
      if endsWithL "不成".data token then (token.dropLast.dropLast, false, true)
      else if endsWithL "成".data token then (token.dropLast, true, false)
      else (token, false, false)
    let working := working1.filter (fun c => !(isDirCh c))
    match pieceNames.find? (fun p => p.1 == working) with
    | none => none
    | some (_, baseKind) =>
      if promoted && !declined then
        let pk := promoteKind baseKind
        if pk ≠ baseKind then some ⟨pk, token, true, false⟩
        else some ⟨baseKind, token, false, false⟩
      else if declined then some ⟨baseKind, token, false, true⟩
      else some ⟨baseKind, token, false, false⟩

/-! ### The move-line regular expression `moveRe`

`moveRe` is `^\s*(\d+)\s+((?:同(?:\s|　)?)|[full-width 1-9 kanji]{2})`
`piecePattern(打?)(?:\((\d{2})\))?(?:\(([^\)]*)\))?` with no end anchor.
Its backtracking is deterministic: every character class involved is
disjoint from its successor, and everything after the piece token is
optional, so greedy matching never needs to give characters back.  The
one genuine choice point — the optional whitespace after `同` — is
resolved by noting that no piece name starts with whitespace, so
consuming the whitespace when present is the only branch that can
succeed. -/

/-- Destination token: `同` (same as previous) or two class digits. -/
inductive DestTok where
  | same
  | digits (c1 c2 : Char)
  deriving DecidableEq, Repr

/-- The capture groups of a successful `moveRe` match. -/
structure MoveMatch where
  n : Nat
  dest : DestTok
  pieceTok : List Char
  dropFlag : Bool
  src : Option (Char × Char)
  ts : Option (List Char)
  deriving DecidableEq, Repr

/-- The destination character class of `moveRe` (full-width digits,
ASCII `1`-`9`, kanji numerals). -/
def inDestClass (c : Char) : Bool :=
  jpNumFull.contains c || decide ('1' ≤ c ∧ c ≤ '9') || jpNumKanji.contains c

/-- First piece name (in alternation order) that is a prefix of `l`,
with the rest of `l`. -/
def findPrefName : List (List Char × PieceKind) → List Char →
    Option (List Char × List Char)
  | [], _ => none
  | (nm, _) :: rest, l =>
    if nm.isPrefixOf l then some (nm, l.drop nm.length) else findPrefName rest l

/-- `moveRe` after the destination token: piece token, drop marker,
source square, timestamp. -/
def afterDest (n : Nat) (dest : DestTok) (l4 : List Char) : Option MoveMatch :=
  match findPrefName pieceNames l4 with
  | none => none
  | some (nm, l5) =>
    let dirs := l5.takeWhile isDirCh
    let l6 := l5.drop dirs.length
    let (suf, l7) :=
      if "成".data.isPrefixOf l6 then (['成'], l6.drop 1)
      else if "不成".data.isPrefixOf l6 then ("不成".data, l6.drop 2)
      else ([], l6)
    let pieceTok := nm ++ dirs ++ suf
    let (dropF, l8) :=
      match l7 with
      | '打' :: r => (true, r)
      | _ => (false, l7)
    let (src, l9) :=
      match l8 with
      | '(' :: a :: b :: ')' :: r =>
        if isDigitA a && isDigitA b then (some (a, b), r) else (none, l8)
      | _ => (none, l8)
    let ts :=
      match l9 with
      | '(' :: r =>
        let content := r.takeWhile (· ≠ ')')
        match r.drop content.length with
        | ')' :: _ => some content
        | _ => none
      | _ => none
    some ⟨n, dest, pieceTok, dropF, src, ts⟩

/-- `moveRe` after the move number: mandatory whitespace, then the
destination token. -/
def matchRest (n : Nat) (l2 : List Char) : Option MoveMatch :=
  let ws2 := l2.takeWhile jsWs
  if ws2.isEmpty then none
  else
    let l3 := l2.drop ws2.length
    match l3 with
    | '同' :: rest =>
      let rest1 :=
        match rest with
        | d :: r => if jsWs d then r else rest
        | [] => rest
      afterDest n .same rest1
    | c1 :: c2 :: rest2 =>
      if inDestClass c1 && inDestClass c2 then afterDest n (.digits c1 c2) rest2
      else none
    | _ => none

/-- `line.match(moveRe)` (the regex is anchored at the start). -/
def matchMove (l : List Char) : Option MoveMatch :=
  let l1 := l.dropWhile jsWs
  let digs := l1.takeWhile isDigitA
  if digs.isEmpty then none
  else matchRest (digitsVal digs) (l1.drop digs.length)

/-- `l` starts with the character `c`. -/
def startsWithCh (c : Char) (l : List Char) : Bool :=
  match l with
  | x :: _ => x == c
  | [] => false

/-- `l` starts with the prefix `p`. -/
def startsWithL (p l : List Char) : Bool := p.isPrefixOf l

/-- `variationRe` = `^変化：(\d+)手`, returning the parsed number. -/
def variationMatch (l : List Char) : Option Nat :=
  if startsWithL "変化：".data l then
    let r := l.drop 3
    let digs := r.takeWhile isDigitA
    if digs.isEmpty then none
    else if startsWithCh '手' (r.drop digs.length) then some (digitsVal digs)
    else none
  else none

/-! ### The parser state and per-line step of `parseKif` -/

/-- Update the element at index `i` (no-op out of range). -/
def updAt : List α → Nat → (α → α) → List α
  | [], _, _ => []
  | x :: r, 0, f => f x :: r
  | x :: r, i + 1, f => x :: updAt r i f

/-- A parse context (`interface ParseContext`): the active line's arena
index and a reference `(lineId, moveIdx)` to the context's `prevMove`
object (JS holds an object pointer; moves are only ever reached through
the line that owns them, so an index pair identifies the object). -/
structure Ctx where
  lineId : Nat
  prevMove : Option (Nat × Nat)
  deriving DecidableEq, Repr

/-- Parser state: header map (as an insertion-ordered association list
with unique keys, modelling a JS object), line arena (root at index 0),
and context stack (head = innermost context; the bottom element is the
original `rootContext`). -/
structure PState where
  header : List (List Char × List Char)
  arena : List VariationLine
  stack : List Ctx
  deriving DecidableEq, Repr

/-- The root `VariationLine` before any line is parsed. -/
def initLine : VariationLine := ⟨1, [], none, []⟩

/-- Initial parser state. -/
def initPState : PState := ⟨[], [initLine], [⟨0, none⟩]⟩

/-- `header[k] = v` on a JS object: overwrite if present, else append. -/
def setHeader (h : List (List Char × List Char)) (k v : List Char) :
    List (List Char × List Char) :=
  if h.any (fun p => p.1 == k) then h.map (fun p => if p.1 == k then (k, v) else p)
  else h ++ [(k, v)]

/-- Header lookup. -/
def headerLookup (h : List (List Char × List Char)) (k : List Char) :
    Option (List Char) :=
  (h.find? (fun p => p.1 == k)).map (·.2)

/-- Dereference a `(lineId, moveIdx)` move reference. -/
def getMove? (arena : List VariationLine) (ref : Nat × Nat) : Option ParsedMove :=
  (arena.get? ref.1).bind (fun l => l.moves.get? ref.2)

/-- The innermost-to-outermost anchor search of the variation branch:
returns the stack suffix starting at the anchor context (the code pops
down to exactly that suffix) together with the index of the first move
numbered `target` in the anchor's line. -/
def anchorSearch (arena : List VariationLine) (target : Nat) :
    List Ctx → Option (List Ctx × Nat)
  | [] => none
  | ctx :: rest =>
    match (((arena.get? ctx.lineId).map (·.moves)).getD []).findIdx?
        (fun m => m.n == target) with
    | some i => some (ctx :: rest, i)
    | none => anchorSearch arena target rest

/-- Comment attachment: newline-join onto an existing comment. -/
def joinComment (old : Option (List Char)) (txt : List Char) : List Char :=
  match old with
  | some c => c ++ '\n' :: txt
  | none => txt

/-- Destination resolution for a move line — the one place `parseKif`
calls the throwing decoder, wrapped in `try`/`catch` (an error becomes
`to = undefined`, i.e. `none`). -/
def destResolveE (st : PState) (ctx : Ctx) (dest : DestTok) :
    Except (List Char) (Option Sq) :=
  match dest with
  | .same =>
    match ctx.prevMove with
    | some ref => .ok ((getMove? st.arena ref).map (·.toSq))
    | none => .ok none
  | .digits c1 c2 =>
    match parseSquareE [c1, c2] with
    | .ok sq => .ok (some sq)
    | .error _ => .ok none

/-- The variation-marker branch of the loop body (pure): anchor
resolution, pop-down, attachment and context push. -/
def stepVariation (st : PState) (start : Nat) : PState :=
  let anchor : Option (List Ctx × Nat) :=
    if start = 1 then none
    else anchorSearch st.arena (start - 1) st.stack
  let newId := st.arena.length
  match anchor with
  | some (stack', i) =>
    match stack' with
    | [] => st
    | actx :: _ =>
      let newLine : VariationLine := ⟨start, [], some (actx.lineId, i + 1), []⟩
      let arena' := updAt st.arena actx.lineId fun ln =>
        { ln with moves := updAt ln.moves i fun m =>
            { m with variations := m.variations ++ [newId] } }
      { header := st.header, arena := arena' ++ [newLine],
        stack := ⟨newId, some (actx.lineId, i)⟩ :: stack' }
  | none =>
    -- `anchorContext = rootContext`: the root line is arena index 0 and
    -- the stack is popped down to the original root context, which
    -- (invariantly) is its bottom element.
    let newLine : VariationLine := ⟨start, [], some (0, 0), []⟩
    let arena' := updAt st.arena 0 fun ln =>
      { ln with leadVariations := ln.leadVariations ++ [newId] }
    let stack' :=
      match st.stack.getLast? with
      | some c => [c]
      | none => []
    { header := st.header, arena := arena' ++ [newLine],
      stack := ⟨newId, none⟩ :: stack' }

/-- The header branch of the loop body (pure): split on every
separator, keep the first two segments, store if both are non-empty. -/
def stepHeader (st : PState) (trimmed : List Char) : PState :=
  match splitOnCh '：' trimmed with
  | k :: v :: _ =>
    if k.isEmpty || v.isEmpty then st
    else { st with header := setHeader st.header (trimL k) (trimL v) }
  | _ => st

/-- The comment branch of the loop body (pure): append to the current
context's `prevMove`, silently dropped without one. -/
def stepComment (st : PState) (trimmed : List Char) : PState :=
  match st.stack with
  | [] => st
  | ctx :: _ =>
    match ctx.prevMove with
    | none => st
    | some ref =>
      let txt := trimL (trimmed.drop 1)
      let arena' := updAt st.arena ref.1 fun ln =>
        { ln with moves := updAt ln.moves ref.2 fun m =>
            { m with comment := some (joinComment m.comment txt) } }
      { st with arena := arena' }

/-- The move-line branch of the loop body for a successful `moveRe`
match: destination resolution (the caught decoder call), piece-token
decoding, move construction, append, `prevMove` update. -/
def stepMoveE (st : PState) (ctx : Ctx) (stackRest : List Ctx)
    (mm : MoveMatch) : Except (List Char) PState :=
    match destResolveE st ctx mm.dest with
    | .error e => .error e
    | .ok none => .ok st
    | .ok (some toSq) =>
      match parsePieceToken mm.pieceTok with
      | none => .ok st
      | some pt =>
        let mv : ParsedMove :=
          { n := mm.n, toSq := toSq,
            fromSq := mm.src.map fun p => ⟨p.1.toNat - 48, p.2.toNat - 48⟩,
            kind := some pt.kind, rawKind := pt.raw,
            promoted := pt.promoted,
            promotionDeclined := pt.promotionDeclined,
            drop := mm.dropFlag, comment := none,
            timestamp := mm.ts.map trimL,
            rawTo := some
              (match mm.dest with
               | .same => ['同']
               | .digits c1 c2 => [c1, c2]),
            variations := [] }
        let lineId := ctx.lineId
        let idx := ((st.arena.get? lineId).map (·.moves.length)).getD 0
        let arena' := updAt st.arena lineId fun ln =>
          { ln with moves := ln.moves ++ [mv] }
        .ok { st with
              arena := arena'
              stack := ⟨lineId, some (lineId, idx)⟩ :: stackRest }

/-- One iteration of the `for (const raw of lines)` loop of `parseKif`:
line classification in source priority order.  The `Except` layer
carries any JS exception that would escape the loop body;
`destResolveE` inside `stepMoveE` is the only potentially-throwing call
and it is caught, which is what the totality theorem below verifies. -/
def stepCore (st : PState) (raw : List Char) : Except (List Char) PState :=
  let line := trimEndL raw
  let trimmed := trimL line
  if trimmed.isEmpty then .ok st
  else if startsWithCh '#' trimmed then .ok st
  else if startsWithL "----".data trimmed then .ok st
  else
    match variationMatch trimmed with
    | some start => .ok (stepVariation st start)
    | none =>
      if containsCh trimmed '：' then .ok (stepHeader st trimmed)
      else if startsWithCh '*' trimmed then
        .ok (stepComment st trimmed)
      else
        match matchMove line with
        | none => .ok st
        | some mm =>
          match st.stack with
          | [] => .ok st
          | ctx :: stackRest => stepMoveE st ctx stackRest mm

/-- The per-line step with the (provably unreachable) error case mapped
to "no state change". -/
def stepRun (st : PState) (raw : List Char) : PState :=
  match stepCore st raw with
  | .ok s => s
  | .error _ => st

/-- `parseKif` on a pre-split list of lines. -/
def parseKifLP (lines : List (List Char)) : PState :=
  lines.foldl stepRun initPState

/-- `parseKif` with the JS exception layer made explicit: an uncaught
exception in any loop iteration would surface here as `.error`. -/
def parseKifE (text : String) : Except (List Char) PState :=
  (splitLines text.data).foldlM stepCore initPState

/-- `parseKif text`, as the final parser state. -/
def parseKifSt (text : String) : PState := parseKifLP (splitLines text.data)

/-- The root line of a parse result (arena index 0). -/
def rootLine (a : List VariationLine) : VariationLine := (a.get? 0).getD initLine

/-! ### The board and the replay engine -/

/-- JS array read `l[i]`: `none` models `undefined` (negative or
out-of-range index). -/
def jsGet (l : List α) (i : Int) : Option α :=
  match i with
  | .ofNat n => l.get? n
  | .negSucc _ => none

/-- JS array write `l[i] = a`, restricted to index positions: an
out-of-range write stores a non-index property that the replay loop
never reads back (all destination squares the parser produces are in
`1..9`), so it is modelled as a no-op. -/
def jsSet (l : List α) (i : Int) (a : α) : List α :=
  match i with
  | .ofNat n => l.set n a
  | .negSucc _ => l

/-- `initialBoard()`: 9×9 grid addressed `[rank-1][file-1]`, `none` for
an empty cell. -/
def backRow (s : Side) (king : PieceKind) : List (Option Piece) :=
  [some ⟨s, kyo⟩, some ⟨s, kei⟩, some ⟨s, gin⟩, some ⟨s, kin⟩, some ⟨s, king⟩,
   some ⟨s, kin⟩, some ⟨s, gin⟩, some ⟨s, kei⟩, some ⟨s, kyo⟩]

/-- Second / eighth rank: a rook and a bishop. -/
def majorRow (s : Side) (left right : PieceKind) : List (Option Piece) :=
  [none, some ⟨s, left⟩, none, none, none, none, none, some ⟨s, right⟩, none]

/-- A rank of nine pawns. -/
def pawnRow (s : Side) : List (Option Piece) := List.replicate 9 (some ⟨s, fu⟩)

/-- An empty rank. -/
def emptyRow : List (Option Piece) := List.replicate 9 none

/-- The fixed starting layout of `initialBoard()`. -/
def initialBoard : List (List (Option Piece)) :=
  [backRow W ou, majorRow W kaku hi, pawnRow W,
   emptyRow, emptyRow, emptyRow,
   pawnRow B, majorRow B hi kaku, backRow B gyoku]

/-- Both sides' hands (`type Hands`). -/
structure Hands where
  b : List PieceKind
  w : List PieceKind
  deriving DecidableEq, Repr

/-- `hands[side]`. -/
def Hands.get : Hands → Side → List PieceKind
  | h, .B => h.b
  | h, .W => h.w

/-- `hands[side] = l`. -/
def Hands.set : Hands → Side → List PieceKind → Hands
  | h, .B, l => { h with b := l }
  | h, .W, l => { h with w := l }

/-- `findIndex` + `splice(i, 1)`: remove the first occurrence. -/
def removeFirstKind (l : List PieceKind) (k : PieceKind) : List PieceKind :=
  match l.findIdx? (· == k) with
  | some i => l.eraseIdx i
  | none => l

/-- The replay-engine state rebuilt by `applyCurrent`. -/
structure RState where
  board : List (List (Option Piece))
  hands : Hands
  lastFrom : Option Sq
  lastTo : Option Sq
  latestMove : Option ParsedMove
  deriving DecidableEq, Repr

/-- State at the start of every replay. -/
def initRState : RState := ⟨initialBoard, ⟨[], []⟩, none, none, none⟩

/-- Acting side from move parity (`mv.n % 2 === 1 ? 'B' : 'W'`). -/
def sideOf (mv : ParsedMove) : Side := if mv.n % 2 = 1 then .B else .W

/-- `board[sq.r-1][sq.f-1] = v` (both indices known in range at every
reachable call site). -/
def writeCell (board : List (List (Option Piece))) (sq : Sq)
    (v : Option Piece) : List (List (Option Piece)) :=
  match jsGet board ((sq.r : Int) - 1) with
  | none => board
  | some row => jsSet board ((sq.r : Int) - 1) (jsSet row ((sq.f : Int) - 1) v)

/-- The tail of the replay loop body shared by drops and board moves:
capture handling, kind resolution, placement, and the `lastTo` /
`latestMove` bookkeeping.  Reading
`const target = board[to.r - 1][to.f - 1]` throws a `TypeError`
(`Except.error`) when the rank row is `undefined`. -/
def finishMove (st : RState) (side : Side) (moving : Piece)
    (mv : ParsedMove) : Except Unit RState :=
  match jsGet st.board ((mv.toSq.r : Int) - 1) with
  | none => .error ()
  | some row =>
    let target := (jsGet row ((mv.toSq.f : Int) - 1)).getD none
    let hands1 :=
      match target with
      | some t =>
        if t.side ≠ side then
          st.hands.set side (st.hands.get side ++ [demoteKind t.kind])
        else st.hands
      | none => st.hands
    let k1 := if !mv.drop && mv.promoted then promoteKind moving.kind
              else moving.kind
    let k2 := if !mv.drop && mv.promotionDeclined && mv.kind.isNone then
                demoteKind k1
              else k1
    let k3 :=
      match mv.kind with
      | some k => k
      | none => k2
    .ok { st with
          board := writeCell st.board mv.toSq (some ⟨moving.side, k3⟩)
          hands := hands1
          lastTo := some mv.toSq
          latestMove := some mv }

/-- One iteration of the replay loop of `applyCurrent`.  A board move
whose source row `board[from.r - 1]` is `undefined` (rank digit `0`)
throws; a present row with an absent piece (including file digit `0`)
is `if (!src) continue` — a skip with no state change at all. -/
def replayStep (st : RState) (mv : ParsedMove) : Except Unit RState :=
  let side := sideOf mv
  if mv.drop then
    let dropKind := demoteKind (mv.kind.getD fu)
    let hand1 := removeFirstKind (st.hands.get side) dropKind
    finishMove { st with hands := st.hands.set side hand1, lastFrom := none }
      side ⟨side, dropKind⟩ mv
  else
    match mv.fromSq with
    | none => .ok st
    | some fr =>
      match jsGet st.board ((fr.r : Int) - 1) with
      | none => .error ()
      | some row =>
        match (jsGet row ((fr.f : Int) - 1)).getD none with
        | none => .ok st
        | some srcP =>
          finishMove
            { st with board := writeCell st.board fr none, lastFrom := some fr }
            side srcP mv

/-- The whole replay loop over a gathered move sequence. -/
def replayE (moves : List ParsedMove) : Except Unit RState :=
  moves.foldlM replayStep initRState

/-! ### `gatherMoves`, `findMoveByNumber` and navigation -/

/-- `gatherMoves(line, upto)` with explicit recursion fuel; the parent
chain of a `parseKif` arena strictly decreases in index, so fuel
`id + 1` always suffices (proved below). -/
def gatherF (arena : List VariationLine) :
    Nat → Nat → Nat → Option (List ParsedMove)
  | 0, _, _ => none
  | fuel + 1, id, upto =>
    match arena.get? id with
    | none => none
    | some line =>
      let pref := line.moves.take (min upto line.moves.length)
      match line.parent with
      | none => some pref
      | some (pid, anchorCount) =>
        match gatherF arena fuel pid anchorCount with
        | none => none
        | some parentSeq => some (parentSeq ++ pref)

/-- `gatherMoves` as a total function. -/
def gatherMoves (arena : List VariationLine) (id upto : Nat) : List ParsedMove :=
  (gatherF arena (id + 1) id upto).getD []

/-- `findMoveByNumber(line, n)`: direct index in this line first, then
depth-first through each move's `variations`, then `leadVariations`;
returns `(lineId, moveIndex)`. -/
def findF (arena : List VariationLine) :
    Nat → Nat → Nat → Option (Nat × Nat)
  | 0, _, _ => none
  | fuel + 1, id, target =>
    match arena.get? id with
    | none => none
    | some line =>
      match line.moves.findIdx? (fun m => m.n == target) with
      | some i => some (id, i)
      | none =>
        match line.moves.findSome?
            (fun m => m.variations.findSome? fun v => findF arena fuel v target) with
        | some res => some res
        | none =>
          line.leadVariations.findSome? fun v => findF arena fuel v target

/-- The navigable viewer state surrounding the replay engine:
`currentLine` / `currentMoveIdx`, the replayed snapshot, the
`WeakMap`-based per-line last-visited memory (`lineState`, keyed by
arena index), and the autoplay flag. -/
structure AppState where
  arena : List VariationLine
  currentLine : Nat
  currentMoveIdx : Nat
  board : List (List (Option Piece))
  hands : Hands
  lastFrom : Option Sq
  lastTo : Option Sq
  latestMove : Option ParsedMove
  lineState : Nat → Option Nat
  isPlaying : Bool

/-- `lineState.set k v`. -/
def setLS (ls : Nat → Option Nat) (k v : Nat) : Nat → Option Nat :=
  fun i => if i = k then some v else ls i

/-- `currentLine.moves.length`. -/
def lineMovesLen (a : List VariationLine) (i : Nat) : Nat :=
  ((a.get? i).map (·.moves.length)).getD 0

/-- `applyCurrent(idx)`: clamp, record the line's last-visited memory,
rebuild board and hands by replaying `gatherMoves(currentLine, idx)`,
and stop autoplay at the end of the line. -/
def applyCurrentE (s : AppState) (idx : Nat) : Except Unit AppState :=
  let len := lineMovesLen s.arena s.currentLine
  let clamped := min idx len
  match replayE (gatherMoves s.arena s.currentLine clamped) with
  | .error e => .error e
  | .ok r =>
    .ok { s with
          currentMoveIdx := clamped
          lineState := setLS s.lineState s.currentLine clamped
          board := r.board
          hands := r.hands
          lastFrom := r.lastFrom
          lastTo := r.lastTo
          latestMove := r.latestMove
          isPlaying := if s.isPlaying && decide (len ≤ clamped) then false
                       else s.isPlaying }

/-- `jumpTo(line, moveIndex)`: stop autoplay, save the current line's
position, switch lines, apply `moveIndex + 1`. -/
def jumpToE (s : AppState) (lid idx : Nat) : Except Unit AppState :=
  applyCurrentE
    { s with
      isPlaying := false
      lineState := setLS s.lineState s.currentLine s.currentMoveIdx
      currentLine := lid }
    (idx + 1)

/-- `goToMoveNumber(n)`; the `Int` argument covers the
negative-number guard (`NaN` is ruled out by the caller's check). -/
def goToMoveNumberE (s : AppState) (n : Int) : Except Unit (Bool × AppState) :=
  if n < 0 then .ok (false, s)
  else
    let s1 := { s with isPlaying := false }
    if n = 0 then
      match applyCurrentE s1 0 with
      | .error e => .error e
      | .ok s2 => .ok (true, s2)
    else
      match findF s1.arena s1.arena.length 0 n.toNat with
      | none => .ok (false, s1)
      | some (lid, idx) =>
        if lid = s1.currentLine then
          match applyCurrentE s1 (idx + 1) with
          | .error e => .error e
          | .ok s2 => .ok (true, s2)
        else
          match jumpToE s1 lid idx with
          | .error e => .error e
          | .ok s2 => .ok (true, s2)

/-- Viewer state over a parse result before the initial
`applyCurrent(0)`. -/
def initApp (st : PState) : AppState :=
  { arena := st.arena
    currentLine := 0
    currentMoveIdx := 0
    board := initialBoard
    hands := ⟨[], []⟩
    lastFrom := none
    lastTo := none
    latestMove := none
    lineState := fun _ => none
    isPlaying := false }

/-- `isOk` on `Except`. -/
def isOkE : Except ε α → Bool
  | .ok _ => true
  | .error _ => false

/-- Board cell by (file, rank), for stating theorems. -/
def boardCell (b : List (List (Option Piece))) (f r : Nat) :
    Option (Option Piece) :=
  (b.get? (r - 1)).bind fun row => row.get? (f - 1)

/-! ### Totality of the parser -/

/-- The destination decode — the only throwing call in the loop body —
is caught, so it always returns `.ok`. -/
theorem destResolveE_isOk (st : PState) (ctx : Ctx) (d : DestTok) :
    ∃ o, destResolveE st ctx d = .ok o := by
  unfold destResolveE
  repeat' split
  all_goals exact ⟨_, rfl⟩

/-- The destination decode never lands in the `catch`-free error
branch. -/
theorem destResolveE_ne_error (st : PState) (ctx : Ctx) (d : DestTok)
    (e : List Char) : destResolveE st ctx d ≠ .error e := by
  obtain ⟨o, ho⟩ := destResolveE_isOk st ctx d
  simp [ho]

/-- The move branch finishes without an uncaught exception: its only
throwing call is the caught destination decode. -/
theorem stepMoveE_isOk (st : PState) (ctx : Ctx) (stackRest : List Ctx)
    (mm : MoveMatch) : ∃ s, stepMoveE st ctx stackRest mm = .ok s := by
  unfold stepMoveE
  obtain ⟨o, ho⟩ := destResolveE_isOk st ctx mm.dest
  rw [ho]
  rcases o with _ | t
  · exact ⟨st, rfl⟩
  · rcases parsePieceToken mm.pieceTok with _ | pt
    · exact ⟨st, rfl⟩
    · exact ⟨_, rfl⟩

/-- Every loop iteration of `parseKif` finishes without an uncaught
exception. -/
theorem stepCore_isOk (st : PState) (raw : List Char) :
    ∃ s, stepCore st raw = .ok s := by
  unfold stepCore
  dsimp only []
  repeat' split
  all_goals try exact ⟨_, rfl⟩
  all_goals exact stepMoveE_isOk st _ _ _

/-- `stepCore` agrees with its pure projection. -/
theorem stepCore_eq_run (st : PState) (raw : List Char) :
    stepCore st raw = .ok (stepRun st raw) := by
  obtain ⟨s, hs⟩ := stepCore_isOk st raw
  rw [stepRun, hs]

/-- The whole parse loop finishes without an uncaught exception, from
any intermediate state. -/
theorem foldlM_stepCore_isOk (lines : List (List Char)) (st : PState) :
    ∃ s, List.foldlM stepCore st lines = .ok s := by
  induction lines generalizing st with
  | nil => exact ⟨st, rfl⟩
  | cons l ls ih =>
    obtain ⟨s1, h1⟩ := stepCore_isOk st l
    obtain ⟨s2, h2⟩ := ih s1
    refine ⟨s2, ?_⟩
    rw [List.foldlM_cons, h1]
    simpa using h2

/-- A line whose destination token contains `０` (outside all three
numeral alphabets) fails `moveRe` and changes no parser state. -/
theorem stepRun_drops_bad_destination (st : PState) :
    stepRun st "1 ０六歩(27)".data = st := rfl

/-- A line with an unrecognized piece token fails `moveRe` and changes
no parser state. -/
theorem stepRun_drops_bad_piece (st : PState) :
    stepRun st "1 ２六将(27)".data = st := rfl

/-- A `同` move line reaching the parser with no previous move in the
current context is dropped with no state change. -/
theorem stepRun_drops_dangling_same :
    stepRun initPState "1 同　歩(27)".data = initPState := by decide

/-- C6: `parseKif` is total — no loop iteration lets an exception
escape (the numeral decoder's throw is caught at the move-line
attempt) — and the three malformed shapes are dropped line-locally: a
`同` destination with no previous move in context (here: as the first
line of the document), a destination with a character outside the
three numeral alphabets, and an unrecognized piece token each
contribute nothing while parsing continues on the remaining lines. -/
theorem parseKif_total_and_drops_malformed :
    (∀ text : String, isOkE (parseKifE text) = true) ∧
    (∀ rest : List (List Char),
      parseKifLP ("1 同　歩(27)".data :: rest) = parseKifLP rest) ∧
    (∀ pre post : List (List Char),
      parseKifLP (pre ++ "1 ０六歩(27)".data :: post) =
        parseKifLP (pre ++ post)) ∧
    (∀ pre post : List (List Char),
      parseKifLP (pre ++ "1 ２六将(27)".data :: post) =
        parseKifLP (pre ++ post)) := by
  refine ⟨?_, ?_, ?_, ?_⟩
  · intro text
    obtain ⟨s, hs⟩ := foldlM_stepCore_isOk (splitLines text.data) initPState
    rw [parseKifE, hs]
    rfl
  · intro rest
    show List.foldl stepRun initPState _ = List.foldl stepRun initPState rest
    rw [List.foldl_cons, stepRun_drops_dangling_same]
  · intro pre post
    show List.foldl stepRun initPState _ = List.foldl stepRun initPState _
    rw [List.foldl_append, List.foldl_append, List.foldl_cons,
      stepRun_drops_bad_destination]
  · intro pre post
    show List.foldl stepRun initPState _ = List.foldl stepRun initPState _
    rw [List.foldl_append, List.foldl_append, List.foldl_cons,
      stepRun_drops_bad_piece]

/-! ### Concrete evaluations settling the falsified claims -/

/-- C1: the replay loop is *not* exception-free on every `parseKif`
tree.  `moveRe` accepts any two ASCII digits as a source square, and on
`"1 ７六歩(70)"` the parsed source rank is `0`, so the replay reads
`board[-1][6]` — `board[-1]` is `undefined` and the member access
throws a `TypeError` that escapes `applyCurrent`.  (A file digit `0`
is absorbed as a missing source piece; only the rank position is
unguarded.) -/
theorem applyCurrent_throws_on_zero_rank_source :
    isOkE (applyCurrentE (initApp (parseKifSt "1 ７六歩(70)")) 1) = false ∧
    (rootLine (parseKifSt "1 ７六歩(70)").arena).moves.map (·.fromSq) =
      [some ⟨7, 0⟩] ∧
    isOkE (applyCurrentE (initApp (parseKifSt "1 ７六歩(07)")) 1) = true := by
  decide

/-- C2 counterexample: replaying `"1 ７六歩(15)"` processes a one-move
sequence whose single non-drop move finds no piece at its recorded
source square `(1,5)`; the `continue` skips the `latestMove` update, so
the final `latestMove` is `none`, not the last move of the replayed
sequence. -/
theorem latestMove_skips_ineffective_moves :
    (gatherMoves (parseKifSt "1 ７六歩(15)").arena 0 1).length = 1 ∧
    (applyCurrentE (initApp (parseKifSt "1 ７六歩(15)")) 1).map
      (·.latestMove) = .ok none := by
  decide

/-- C3 counterexample: the drop `"1 ５五と打"` records kind `と`; the
replay removes `歩` (the demoted base form) from the hand but the final
`if (mv.kind)` override places a piece of kind `と` — not the demoted
base form the claim requires. -/
theorem drop_places_recorded_kind_not_base :
    (rootLine (parseKifSt "1 ５五と打").arena).moves.map
      (fun m => (m.drop, m.kind)) = [(true, some tokin)] ∧
    (applyCurrentE (initApp (parseKifSt "1 ５五と打")) 1).map
      (fun st => boardCell st.board 5 5) = .ok (some (some ⟨.B, tokin⟩)) ∧
    demoteKind tokin ≠ tokin := by
  decide

/-- C4 counterexample: `parseKif` copies each accepted move line's
written number verbatim, so `"1 ７六歩(77)\n5 ３四歩(33)"` yields root
moves numbered `[1, 5]` although `startMoveNumber = 1`: `moves[1].n`
is `5`, not `1 + 1`. -/
theorem move_numbers_not_contiguous :
    (rootLine (parseKifSt "1 ７六歩(77)\n5 ３四歩(33)").arena).startMoveNumber
      = 1 ∧
    (rootLine (parseKifSt "1 ７六歩(77)\n5 ３四歩(33)").arena).moves.map (·.n)
      = [1, 5] ∧
    (5 : Nat) ≠ 1 + 1 := by
  decide

/-- C5 counterexample: on `"棋戦：a：b"` the stored value is the
segment between the first and second separators (`"a"`), not the whole
trimmed remainder after the first separator (`"a：b"`). -/
theorem header_value_stops_at_second_separator :
    headerLookup (parseKifSt "棋戦：a：b").header "棋戦".data =
      some "a".data ∧
    "a".data ≠ "a：b".data := by
  decide

/-- C7 counterexample: `goToMoveNumber(0)` returns `true` (it is
special-cased as "go to the start position") even on a tree in which no
move at all — in particular none numbered `0` — exists, where the claim
demands a `false` result. -/
theorem goToMoveNumber_zero_true_despite_miss :
    (goToMoveNumberE (initApp (parseKifSt "")) 0).map Prod.fst = .ok true ∧
    findF (parseKifSt "").arena (parseKifSt "").arena.length 0 0 = none := by
  decide

/-! ### Replay-step characterizations (C2, C3 amended) -/

/-- The source-square read `board[from.r-1][from.f-1]` as a two-level
`Option`: `none` = the rank row itself is `undefined` (the replay
throws), `some none` = row present but no piece (the replay skips),
`some (some p)` = piece present. -/
def srcCell (board : List (List (Option Piece))) (fr : Sq) :
    Option (Option Piece) :=
  (jsGet board ((fr.r : Int) - 1)).map fun row =>
    (jsGet row ((fr.f : Int) - 1)).getD none

/-- `foldlM` over `Except` splits at an appended element. -/
theorem foldlM_except_append_single {α β ε : Type}
    (f : β → α → Except ε β) (mv : α) :
    ∀ (ms : List α) (b : β),
      List.foldlM f b (ms ++ [mv]) =
        (List.foldlM f b ms).bind (fun s => f s mv)
  | [], b => by
    cases hx : f b mv <;>
      simp [List.foldlM, hx, Except.bind, pure, Except.pure, Bind.bind]
  | x :: ms, b => by
    cases hx : f b x <;>
      simp [List.foldlM, hx, Except.bind, pure, Except.pure, Bind.bind,
        foldlM_except_append_single f mv ms]

/-- Replaying one more move is one `replayStep` after the prefix. -/
theorem replayE_append_single (ms : List ParsedMove) (mv : ParsedMove) :
    replayE (ms ++ [mv]) =
      (replayE ms).bind (fun st => replayStep st mv) := by
  unfold replayE
  exact foldlM_except_append_single replayStep mv ms initRState

/-- A successful `finishMove` always records the move as `latestMove`
and its destination as the `lastTo` highlight. -/
theorem finishMove_ok_fields (st : RState) (side : Side) (moving : Piece)
    (mv : ParsedMove) (st' : RState)
    (h : finishMove st side moving mv = .ok st') :
    st'.latestMove = some mv ∧ st'.lastTo = some mv.toSq := by
  unfold finishMove at h
  split at h
  · simp at h
  · injection h with h
    subst h
    exact ⟨rfl, rfl⟩

/-- A non-drop move without a recorded source square is skipped with no
state change (`else { continue; }`). -/
theorem replayStep_skip_nofrom (st : RState) (mv : ParsedMove)
    (hd : mv.drop = false) (hf : mv.fromSq = none) :
    replayStep st mv = .ok st := by
  simp [replayStep, hd, hf]

/-- A non-drop move whose recorded source square holds no piece is
skipped with no state change (`if (!src) continue`). -/
theorem replayStep_skip_missing (st : RState) (mv : ParsedMove) (fr : Sq)
    (hd : mv.drop = false) (hf : mv.fromSq = some fr)
    (hc : srcCell st.board fr = some none) :
    replayStep st mv = .ok st := by
  rw [srcCell] at hc
  rcases hrow : jsGet st.board ((fr.r : Int) - 1) with _ | row
  · rw [hrow] at hc
    simp at hc
  · rw [hrow] at hc
    simp only [Option.map] at hc
    injection hc with hc
    simp [replayStep, hd, hf, hrow, hc]

/-- A drop is processed by `finishMove` after the hand removal. -/
theorem replayStep_drop_eq (st : RState) (mv : ParsedMove)
    (hd : mv.drop = true) :
    replayStep st mv =
      finishMove
        { st with
          hands := st.hands.set (sideOf mv)
            (removeFirstKind (st.hands.get (sideOf mv))
              (demoteKind (mv.kind.getD fu)))
          lastFrom := none }
        (sideOf mv) ⟨sideOf mv, demoteKind (mv.kind.getD fu)⟩ mv := by
  simp [replayStep, hd]

/-- A board move with a present source piece is processed by
`finishMove` after lifting the piece. -/
theorem replayStep_board_eq (st : RState) (mv : ParsedMove) (fr : Sq)
    (p : Piece) (hd : mv.drop = false) (hf : mv.fromSq = some fr)
    (hc : srcCell st.board fr = some (some p)) :
    replayStep st mv =
      finishMove
        { st with board := writeCell st.board fr none, lastFrom := some fr }
        (sideOf mv) p mv := by
  rw [srcCell] at hc
  rcases hrow : jsGet st.board ((fr.r : Int) - 1) with _ | row
  · rw [hrow] at hc
    simp at hc
  · rw [hrow] at hc
    simp only [Option.map] at hc
    injection hc with hc
    simp [replayStep, hd, hf, hrow, hc]

/-- C2 (amended): after a replayed move that has a board effect — every
drop, and every board move whose recorded source square holds a
piece — that move becomes `latestMove` and its destination the
`lastTo` highlight; but a skipped move (no source square, or a source
square holding no piece) leaves both unchanged, because `continue`
bypasses the bookkeeping.  The final `latestMove` is therefore the last
*effective* move of the replayed sequence, not necessarily its last
move. -/
theorem latestMove_tracks_effective_moves (ms : List ParsedMove)
    (mv : ParsedMove) (st st' : RState)
    (h : replayE ms = .ok st) (h' : replayE (ms ++ [mv]) = .ok st') :
    (mv.drop = true →
      st'.latestMove = some mv ∧ st'.lastTo = some mv.toSq) ∧
    (mv.drop = false → mv.fromSq = none →
      st' = st) ∧
    (∀ fr, mv.drop = false → mv.fromSq = some fr →
      srcCell st.board fr = some none → st' = st) ∧
    (∀ fr p, mv.drop = false → mv.fromSq = some fr →
      srcCell st.board fr = some (some p) →
      st'.latestMove = some mv ∧ st'.lastTo = some mv.toSq) := by
  have hstep : replayStep st mv = .ok st' := by
    rw [replayE_append_single, h] at h'
    simpa [Except.bind] using h'
  refine ⟨?_, ?_, ?_, ?_⟩
  · intro hd
    rw [replayStep_drop_eq st mv hd] at hstep
    exact finishMove_ok_fields _ _ _ _ _ hstep
  · intro hd hf
    rw [replayStep_skip_nofrom st mv hd hf] at hstep
    injection hstep with hstep
    exact hstep.symm
  · intro fr hd hf hc
    rw [replayStep_skip_missing st mv fr hd hf hc] at hstep
    injection hstep with hstep
    exact hstep.symm
  · intro fr p hd hf hc
    rw [replayStep_board_eq st mv fr p hd hf hc] at hstep
    exact finishMove_ok_fields _ _ _ _ _ hstep

/-- Reading back the hand just written. -/
theorem Hands.get_set_same (h : Hands) (s : Side) (l : List PieceKind) :
    (h.set s l).get s = l := by
  cases h
  cases s <;> rfl

/-- Overwriting the same side's hand twice. -/
theorem Hands.set_set_same (h : Hands) (s : Side) (l l' : List PieceKind) :
    (h.set s l).set s l' = h.set s l' := by
  cases h
  cases s <;> rfl

/-- C3 (amended): a replayed drop with recorded kind `k` removes one
piece of the *demoted base form* `demoteKind k` from the acting side's
hand (tolerant no-op when absent, and an opposing piece already on the
destination is still captured into the hand afterwards), but the piece
placed on the destination is a newly constructed piece of the acting
side whose kind is the recorded kind `k` itself — the final
`if (mv.kind)` override wins — which coincides with the demoted base
form only when `k` is a base kind.  The `lastFrom` highlight is
cleared. -/
theorem drop_places_recorded_kind (ms : List ParsedMove) (mv : ParsedMove)
    (k : PieceKind) (st st' : RState)
    (h : replayE ms = .ok st) (h' : replayE (ms ++ [mv]) = .ok st')
    (hd : mv.drop = true) (hk : mv.kind = some k) :
    st'.board = writeCell st.board mv.toSq (some ⟨sideOf mv, k⟩) ∧
    st'.lastFrom = none ∧
    (∀ tgt, srcCell st.board mv.toSq = some tgt →
      st'.hands.get (sideOf mv) =
        removeFirstKind (st.hands.get (sideOf mv)) (demoteKind k) ++
          (match tgt with
           | some t => if t.side ≠ sideOf mv then [demoteKind t.kind] else []
           | none => [])) := by
  have hstep : replayStep st mv = .ok st' := by
    rw [replayE_append_single, h] at h'
    simpa [Except.bind] using h'
  rw [replayStep_drop_eq st mv hd, hk] at hstep
  unfold finishMove at hstep
  simp only [Option.getD_some] at hstep
  rcases hrow : jsGet st.board ((mv.toSq.r : Int) - 1) with _ | row
  · rw [hrow] at hstep
    simp at hstep
  · rw [hrow] at hstep
    simp only [] at hstep
    injection hstep with hstep
    subst hstep
    refine ⟨?_, rfl, ?_⟩
    · simp only [hk]
    · intro tgt htgt
      rw [srcCell, hrow] at htgt
      simp only [Option.map] at htgt
      injection htgt with htgt
      rw [htgt]
      rcases tgt with _ | t
      · simp [Hands.get_set_same]
      · by_cases hside : t.side = sideOf mv
        · simp [hside, Hands.get_set_same]
        · simp [hside, Hands.get_set_same, Hands.set_set_same]

/-- A concrete non-drop move whose recorded source square `(1,5)` is
empty on the initial board (the parse of `"1 ７六歩(15)"`). -/
def mvSkip : ParsedMove :=
  { n := 1, toSq := ⟨7, 6⟩, fromSq := some ⟨1, 5⟩, kind := some fu,
    rawKind := "歩".data, promoted := false, promotionDeclined := false,
    drop := false, comment := none, timestamp := none,
    rawTo := some "７六".data, variations := [] }

/-- Witness for the C2 amended theorem at `mvSkip`: the skipped move
leaves the whole replay state unchanged. -/
theorem latestMove_tracks_effective_moves_witness :
    initRState = initRState ∧ srcCell initRState.board ⟨1, 5⟩ = some none :=
  ⟨(latestMove_tracks_effective_moves [] mvSkip initRState initRState
      (by decide) (by decide)).2.2.1 ⟨1, 5⟩ (by decide) (by decide)
      (by decide),
   by decide⟩

/-- A concrete drop of an already-promoted kind (the parse of
`"1 ５五と打"`). -/
def mvDrop : ParsedMove :=
  { n := 1, toSq := ⟨5, 5⟩, fromSq := none, kind := some tokin,
    rawKind := "と".data, promoted := false, promotionDeclined := false,
    drop := true, comment := none, timestamp := none,
    rawTo := some "５五".data, variations := [] }

/-- Replay state after replaying exactly `[mvDrop]`. -/
def stDrop : RState :=
  { board := writeCell initialBoard ⟨5, 5⟩ (some ⟨B, tokin⟩)
    hands := ⟨[], []⟩
    lastFrom := none
    lastTo := some ⟨5, 5⟩
    latestMove := some mvDrop }

/-- Witness for the C3 amended theorem at `mvDrop`. -/
theorem drop_places_recorded_kind_witness :
    stDrop.board =
      writeCell initRState.board mvDrop.toSq (some ⟨sideOf mvDrop, tokin⟩) ∧
    stDrop.lastFrom = none := by
  have h := drop_places_recorded_kind [] mvDrop tokin initRState stDrop
    (by decide) (by decide) rfl rfl
  exact ⟨h.1, h.2.1⟩

/-- C7 (amended): for a requested move number `n ≥ 1` that the global
tree search does not find, `goToMoveNumber` returns `false` without
throwing, and the replay state is untouched: the returned state differs
from the input state only in the stopped autoplay flag, so current
line, current move index, board, hands, last-move highlights and the
per-line last-visited memory are all exactly as before the call. -/
theorem goToMoveNumber_miss_reports_false_unchanged (s : AppState) (n : Int)
    (h1 : 1 ≤ n) (h2 : findF s.arena s.arena.length 0 n.toNat = none) :
    goToMoveNumberE s n = .ok (false, { s with isPlaying := false }) ∧
    ({ s with isPlaying := false } : AppState).currentLine = s.currentLine ∧
    ({ s with isPlaying := false } : AppState).currentMoveIdx =
      s.currentMoveIdx ∧
    ({ s with isPlaying := false } : AppState).board = s.board ∧
    ({ s with isPlaying := false } : AppState).hands = s.hands ∧
    ({ s with isPlaying := false } : AppState).lineState = s.lineState := by
  have hn0 : ¬ n < 0 := by omega
  have hne : ¬ n = 0 := by omega
  refine ⟨?_, rfl, rfl, rfl, rfl, rfl⟩
  unfold goToMoveNumberE
  rw [if_neg hn0, if_neg hne]
  simp only []
  rw [h2]

/-- Witness for the C7 amended theorem: move number 9 is absent from
the one-move tree of `"1 ７六歩(77)"`. -/
theorem goToMoveNumber_miss_witness :
    goToMoveNumberE (initApp (parseKifSt "1 ７六歩(77)")) 9 =
      .ok (false,
        { initApp (parseKifSt "1 ７六歩(77)") with isPlaying := false }) :=
  (goToMoveNumber_miss_reports_false_unchanged
    (initApp (parseKifSt "1 ７六歩(77)")) 9 (by decide) (by decide)).1

/-! ### Arena well-formedness (C10) -/

/-- `updAt` preserves length. -/
theorem updAt_length : ∀ (l : List α) (i : Nat) (f : α → α),
    (updAt l i f).length = l.length
  | [], _, _ => rfl
  | _ :: _, 0, _ => rfl
  | _ :: r, i + 1, f => congrArg Nat.succ (updAt_length r i f)

/-- `updAt` at the updated index. -/
theorem updAt_get_self : ∀ (l : List α) (i : Nat) (f : α → α),
    (updAt l i f).get? i = (l.get? i).map f
  | [], i, f => by cases i <;> rfl
  | _ :: r, 0, f => rfl
  | _ :: r, i + 1, f => updAt_get_self r i f

/-- `updAt` away from the updated index. -/
theorem updAt_get_ne : ∀ (l : List α) (i j : Nat) (f : α → α), j ≠ i →
    (updAt l i f).get? j = l.get? j
  | [], _, _, _, _ => by simp [updAt]
  | _ :: r, 0, 0, f, h => absurd rfl h
  | _ :: r, 0, j + 1, f, h => rfl
  | _ :: r, i + 1, 0, f, h => rfl
  | _ :: r, i + 1, j + 1, f, h =>
    updAt_get_ne r i j f fun e => h (by rw [e])

/-- Every element of `updAt l i f` is an element of `l` or the image of
one. -/
theorem updAt_mem : ∀ (l : List α) (i : Nat) (f : α → α), ∀ x ∈ updAt l i f,
    x ∈ l ∨ ∃ y ∈ l, x = f y
  | [], _, _, x, hx => .inl hx
  | a :: r, 0, f, x, hx => by
    cases hx with
    | head => exact .inr ⟨a, .head r, rfl⟩
    | tail _ hx => exact .inl (.tail a hx)
  | a :: r, i + 1, f, x, hx => by
    cases hx with
    | head => exact .inl (.head r)
    | tail _ hx =>
      rcases updAt_mem r i f x hx with h | ⟨y, hy, he⟩
      · exact .inl (.tail a h)
      · exact .inr ⟨y, .tail a hy, he⟩

/-- Per-line well-formedness: parent index strictly below own index,
only the root is parentless, and every child edge (a move's
`variations`, the line's `leadVariations`) points strictly above the
owner and inside the arena. -/
def LineOk (alen i : Nat) (li : VariationLine) : Prop :=
  (∀ p ∈ li.parent, p.1 < i) ∧
  (li.parent = none → i = 0) ∧
  (∀ mv ∈ li.moves, ∀ v ∈ mv.variations, i < v ∧ v < alen) ∧
  (∀ v ∈ li.leadVariations, i < v ∧ v < alen)

/-- Arena well-formedness: nonempty, parentless root at index 0, and
every line `LineOk`.  Parent edges strictly decrease the index and
child edges strictly increase it, so the link graph is acyclic and
every parent chain reaches index 0. -/
def ArenaWF (a : List VariationLine) : Prop :=
  a ≠ [] ∧
  (∀ l0, a.get? 0 = some l0 → l0.parent = none) ∧
  (∀ i li, a.get? i = some li → LineOk a.length i li)

/-- Full parser-state invariant: well-formed arena and every stack
context referencing an existing line. -/
def PInv (st : PState) : Prop :=
  ArenaWF st.arena ∧ ∀ ctx ∈ st.stack, ctx.lineId < st.arena.length

/-- `LineOk` is monotone in the arena length. -/
theorem LineOk.mono {alen alen' i : Nat} {li : VariationLine}
    (h : LineOk alen i li) (hle : alen ≤ alen') : LineOk alen' i li := by
  obtain ⟨h1, h2, h3, h4⟩ := h
  refine ⟨h1, h2, fun mv hmv v hv => ?_, fun v hv => ?_⟩
  · exact ⟨(h3 mv hmv v hv).1, lt_of_lt_of_le (h3 mv hmv v hv).2 hle⟩
  · exact ⟨(h4 v hv).1, lt_of_lt_of_le (h4 v hv).2 hle⟩

/-- The initial parser state is well-formed. -/
theorem PInv_init : PInv initPState := by
  refine ⟨⟨by decide, ?_, ?_⟩, ?_⟩
  · intro l0 h
    injection h with h
    rw [← h]
    rfl
  · intro i li h
    rcases i with _ | i
    · injection h with h
      rw [← h]
      exact ⟨by simp [initLine], fun _ => rfl, by simp [initLine],
        by simp [initLine]⟩
    · simp [initPState, List.get?] at h
  · intro ctx hctx
    simp only [initPState, List.mem_singleton] at hctx
    rw [hctx]
    decide

/-- Reading an updated arena: either the original line or, at the
updated index, its image. -/
theorem updAt_get_cases (l : List α) (i j : Nat) (f : α → α) (x : α)
    (h : (updAt l i f).get? j = some x) :
    l.get? j = some x ∨ (j = i ∧ ∃ y, l.get? j = some y ∧ x = f y) := by
  rcases Nat.decEq j i with hne | heq
  · rw [updAt_get_ne l i j f hne] at h
    exact .inl h
  · subst heq
    rw [updAt_get_self] at h
    rcases hy : l.get? j with _ | y
    · rw [hy] at h
      simp at h
    · rw [hy] at h
      simp only [Option.map] at h
      injection h with h
      exact .inr ⟨rfl, y, rfl, h.symm⟩

/-- `updAt` never empties a list. -/
theorem updAt_ne_nil (l : List α) (i : Nat) (f : α → α) (h : l ≠ []) :
    updAt l i f ≠ [] := by
  rcases l with _ | ⟨x, r⟩
  · exact absurd rfl h
  · cases i <;> simp [updAt]

/-- The last element of a list is a member. -/
theorem mem_of_getLastQ (l : List α) (x : α) (h : l.getLast? = some x) :
    x ∈ l := by
  obtain ⟨hne, hx⟩ :=
    List.mem_getLast?_eq_getLast (Option.mem_def.mpr h)
  rw [hx]
  exact List.getLast_mem hne

/-- Every context the anchor search returns (the stack suffix the code
pops down to) consists of contexts already on the stack. -/
theorem anchorSearch_suffix_mem (a : List VariationLine) (t : Nat) :
    ∀ (stack stack' : List Ctx) (i : Nat),
      anchorSearch a t stack = some (stack', i) → ∀ c ∈ stack', c ∈ stack
  | [], _, _, h => by simp [anchorSearch] at h
  | ctx :: rest, stack', i, h => by
    unfold anchorSearch at h
    split at h
    · injection h with h
      have h1 : ctx :: rest = stack' := congrArg Prod.fst h
      intro c hc
      rw [← h1] at hc
      exact hc
    · intro c hc
      exact .tail ctx (anchorSearch_suffix_mem a t rest stack' i h c hc)

/-- The header branch touches neither arena nor stack. -/
theorem stepHeader_arena_stack (st : PState) (t : List Char) :
    (stepHeader st t).arena = st.arena ∧ (stepHeader st t).stack = st.stack := by
  unfold stepHeader
  repeat' split
  all_goals exact ⟨rfl, rfl⟩

/-- The comment branch preserves the invariant (it only rewrites one
move's `comment`). -/
theorem stepComment_preserves (st : PState) (t : List Char) (h : PInv st) :
    PInv (stepComment st t) := by
  obtain ⟨⟨hne, hroot, hline⟩, hstk⟩ := h
  unfold stepComment
  split
  · exact ⟨⟨hne, hroot, hline⟩, hstk⟩
  next ctx rest heq =>
    split
    · exact ⟨⟨hne, hroot, hline⟩, hstk⟩
    next ref heq2 =>
      refine ⟨⟨updAt_ne_nil _ _ _ hne, ?_, ?_⟩, ?_⟩
      · intro l0 h0
        rcases updAt_get_cases _ _ _ _ _ h0 with hc | ⟨_, y, hy, he⟩
        · exact hroot l0 hc
        · rw [he]
          exact hroot y hy
      · intro i li h0
        rw [updAt_length]
        rcases updAt_get_cases _ _ _ _ _ h0 with hc | ⟨_, y, hy, he⟩
        · exact hline i li hc
        · subst he
          obtain ⟨h1, h2, h3, h4⟩ := hline i y hy
          refine ⟨h1, h2, ?_, h4⟩
          intro mv hmv v hv
          rcases updAt_mem _ _ _ mv hmv with hm | ⟨m, hm, he2⟩
          · exact h3 mv hm v hv
          · subst he2
            exact h3 m hm v hv
      · intro c hc
        rw [updAt_length]
        exact hstk c hc

/-- The move branch preserves the invariant: it appends a move with no
variations to a stack-referenced line and rebinds the top context. -/
theorem stepMoveE_preserves (st : PState) (ctx : Ctx) (rest : List Ctx)
    (mm : MoveMatch) (s : PState) (hstack : st.stack = ctx :: rest)
    (h : PInv st) (hok : stepMoveE st ctx rest mm = .ok s) : PInv s := by
  obtain ⟨⟨hne, hroot, hline⟩, hstk⟩ := h
  have hctx : ctx.lineId < st.arena.length := by
    refine hstk ctx ?_
    rw [hstack]
    exact .head rest
  unfold stepMoveE at hok
  obtain ⟨o, ho⟩ := destResolveE_isOk st ctx mm.dest
  rw [ho] at hok
  rcases o with _ | t
  · injection hok with hok
    rw [← hok]
    exact ⟨⟨hne, hroot, hline⟩, hstk⟩
  · rcases hpt : parsePieceToken mm.pieceTok with _ | pt
    · rw [hpt] at hok
      injection hok with hok
      rw [← hok]
      exact ⟨⟨hne, hroot, hline⟩, hstk⟩
    · rw [hpt] at hok
      injection hok with hok
      rw [← hok]
      refine ⟨⟨updAt_ne_nil _ _ _ hne, ?_, ?_⟩, ?_⟩
      · intro l0 h0
        rcases updAt_get_cases _ _ _ _ _ h0 with hc | ⟨_, y, hy, he⟩
        · exact hroot l0 hc
        · rw [he]
          exact hroot y hy
      · intro i li h0
        rw [updAt_length]
        rcases updAt_get_cases _ _ _ _ _ h0 with hc | ⟨_, y, hy, he⟩
        · exact hline i li hc
        · subst he
          obtain ⟨h1, h2, h3, h4⟩ := hline i y hy
          refine ⟨h1, h2, ?_, h4⟩
          intro mv hmv v hv
          rcases List.mem_append.mp hmv with hm | hm
          · exact h3 mv hm v hv
          · rw [List.mem_singleton] at hm
            rw [hm] at hv
            exact absurd hv (List.not_mem_nil v)
      · intro c hc
        rw [updAt_length]
        cases hc with
        | head => exact hctx
        | tail _ hc2 =>
          refine hstk c ?_
          rw [hstack]
          exact .tail ctx hc2

/-- The variation branch preserves the invariant. -/
theorem stepVariation_preserves (st : PState) (start : Nat) (h : PInv st) :
    PInv (stepVariation st start) := by
  obtain ⟨⟨hne, hroot, hline⟩, hstk⟩ := h
  have hlen1 : 1 ≤ st.arena.length := by
    rcases hAe : st.arena with _ | ⟨x, r⟩
    · exact absurd hAe hne
    · simp
  unfold stepVariation
  rcases hA : (if start = 1 then none
      else anchorSearch st.arena (start - 1) st.stack) with _ | ⟨stack', i⟩
  · -- no anchor: attach to the root line's leadVariations
    dsimp only []
    set A := updAt st.arena 0 fun ln =>
      { ln with leadVariations := ln.leadVariations ++ [st.arena.length] }
      with hAdef
    set nl : VariationLine := ⟨start, [], some (0, 0), []⟩ with hnl
    have hlenA : A.length = st.arena.length := updAt_length _ _ _
    have hlen2 : (A ++ [nl]).length = st.arena.length + 1 := by
      rw [List.length_append, hlenA]
      rfl
    refine ⟨⟨by simp, ?_, ?_⟩, ?_⟩
    · intro l0 h0
      dsimp only [] at h0
      rw [List.get?_append (by rw [hlenA]; exact hlen1)] at h0
      rcases updAt_get_cases _ _ _ _ _ h0 with hc | ⟨_, y, hy, he⟩
      · exact hroot l0 hc
      · rw [he]
        exact hroot y hy
    · intro j li h0
      dsimp only [] at h0 ⊢
      rw [hlen2]
      rcases Nat.lt_trichotomy j st.arena.length with hlt | hj | hgt
      · rw [List.get?_append (by rw [hlenA]; exact hlt)] at h0
        rcases updAt_get_cases _ _ _ _ _ h0 with hc | ⟨hj0, y, hy, he⟩
        · exact (hline j li hc).mono (Nat.le_succ _)
        · subst he
          obtain ⟨h1, h2, h3, h4⟩ := hline j y hy
          refine ⟨h1, h2,
            fun mv hmv v hv =>
              ((h3 mv hmv v hv).imp id fun h => Nat.lt_succ_of_lt h), ?_⟩
          intro v hv
          rcases List.mem_append.mp hv with hm | hm
          · exact ⟨(h4 v hm).1, Nat.lt_succ_of_lt (h4 v hm).2⟩
          · rw [List.mem_singleton] at hm
            subst hm
            rw [hj0]
            exact ⟨hlen1, Nat.lt_succ_self _⟩
      · subst hj
        have hx := List.get?_concat_length A nl
        rw [hlenA] at hx
        rw [hx] at h0
        injection h0 with h0
        rw [← h0, hnl]
        refine ⟨?_, ?_, by simp, by simp⟩
        · intro p hp
          rw [Option.mem_def] at hp
          injection hp with hp
          rw [← hp]
          exact lt_of_lt_of_le hlen1 (by simp)
        · intro hcon
          simp at hcon
      · rw [List.get?_eq_none.mpr (by rw [hlen2]; omega)] at h0
        cases h0
    · intro c hc
      dsimp only [] at hc ⊢
      rw [hlen2]
      cases hc with
      | head => simp [hlenA]
      | tail _ hc2 =>
        rcases hL : st.stack.getLast? with _ | c0
        · rw [hL] at hc2
          cases hc2
        · rw [hL] at hc2
          cases hc2 with
          | head => exact Nat.lt_succ_of_lt (hstk _ (mem_of_getLastQ _ _ hL))
          | tail _ h3 => cases h3
  · -- anchor found at the head of the popped-down stack suffix
    have hAs : anchorSearch st.arena (start - 1) st.stack = some (stack', i) := by
      by_cases h1 : start = 1
      · rw [if_pos h1] at hA
        cases hA
      · rw [if_neg h1] at hA
        exact hA
    have hmem : ∀ c ∈ stack', c ∈ st.stack :=
      anchorSearch_suffix_mem st.arena (start - 1) st.stack stack' i hAs
    rcases stack' with _ | ⟨actx, stk⟩
    · exact ⟨⟨hne, hroot, hline⟩, hstk⟩
    · dsimp only []
      have hactx : actx.lineId < st.arena.length :=
        hstk actx (hmem actx (.head stk))
      set A := updAt st.arena actx.lineId fun ln =>
        { ln with moves := updAt ln.moves i fun m =>
            { m with variations := m.variations ++ [st.arena.length] } }
        with hAdef
      set nl : VariationLine := ⟨start, [], some (actx.lineId, i + 1), []⟩
        with hnl
      have hlenA : A.length = st.arena.length := updAt_length _ _ _
      have hlen2 : (A ++ [nl]).length = st.arena.length + 1 := by
        rw [List.length_append, hlenA]
        rfl
      refine ⟨⟨by simp, ?_, ?_⟩, ?_⟩
      · intro l0 h0
        dsimp only [] at h0
        rw [List.get?_append (by rw [hlenA]; exact hlen1)] at h0
        rcases updAt_get_cases _ _ _ _ _ h0 with hc | ⟨_, y, hy, he⟩
        · exact hroot l0 hc
        · rw [he]
          exact hroot y hy
      · intro j li h0
        dsimp only [] at h0 ⊢
        rw [hlen2]
        rcases Nat.lt_trichotomy j st.arena.length with hlt | hj | hgt
        · rw [List.get?_append (by rw [hlenA]; exact hlt)] at h0
          rcases updAt_get_cases _ _ _ _ _ h0 with hc | ⟨hj0, y, hy, he⟩
          · exact (hline j li hc).mono (Nat.le_succ _)
          · subst he
            obtain ⟨h1, h2, h3, h4⟩ := hline j y hy
            refine ⟨h1, h2, ?_,
              fun v hv => ⟨(h4 v hv).1, Nat.lt_succ_of_lt (h4 v hv).2⟩⟩
            intro mv hmv v hv
            rcases updAt_mem _ _ _ mv hmv with hm | ⟨m, hm, he2⟩
            · exact ((h3 mv hm v hv).imp id fun h => Nat.lt_succ_of_lt h)
            · subst he2
              rcases List.mem_append.mp hv with hv2 | hv2
              · exact ((h3 m hm v hv2).imp id fun h => Nat.lt_succ_of_lt h)
              · rw [List.mem_singleton] at hv2
                subst hv2
                rw [hj0]
                exact ⟨hactx, Nat.lt_succ_self _⟩
        · subst hj
          have hx := List.get?_concat_length A nl
          rw [hlenA] at hx
          rw [hx] at h0
          injection h0 with h0
          rw [← h0, hnl]
          refine ⟨?_, ?_, by simp, by simp⟩
          · intro p hp
            rw [Option.mem_def] at hp
            injection hp with hp
            rw [← hp]
            exact hactx
          · intro hcon
            simp at hcon
        · rw [List.get?_eq_none.mpr (by rw [hlen2]; omega)] at h0
          cases h0
      · intro c hc
        dsimp only [] at hc ⊢
        rw [hlen2]
        cases hc with
        | head => simp [hlenA]
        | tail _ hc2 =>
          exact Nat.lt_succ_of_lt (hstk c (hmem c hc2))

/-- Case analysis of one parse-loop iteration: no state change, or one
of the four branch functions. -/
theorem stepCore_cases (st : PState) (raw : List Char) :
    stepCore st raw = .ok st ∨
    (∃ start, stepCore st raw = .ok (stepVariation st start)) ∨
    (∃ t, stepCore st raw = .ok (stepHeader st t)) ∨
    (∃ t, stepCore st raw = .ok (stepComment st t)) ∨
    (∃ ctx stackRest mm, st.stack = ctx :: stackRest ∧
      stepCore st raw = stepMoveE st ctx stackRest mm) := by
  unfold stepCore
  dsimp only []
  repeat' split
  all_goals first
    | exact .inl rfl
    | exact .inr (.inl ⟨_, rfl⟩)
    | exact .inr (.inr (.inl ⟨_, rfl⟩))
    | exact .inr (.inr (.inr (.inl ⟨_, rfl⟩)))
    | exact .inr (.inr (.inr (.inr ⟨_, _, _, by assumption, rfl⟩)))

/-- Every parse-loop iteration preserves the invariant. -/
theorem stepRun_preserves (st : PState) (raw : List Char) (h : PInv st) :
    PInv (stepRun st raw) := by
  rcases stepCore_cases st raw with hc | ⟨start, hc⟩ | ⟨t, hc⟩ | ⟨t, hc⟩
    | ⟨ctx, rest, mm, hstack, hc⟩
  · unfold stepRun
    rw [hc]
    exact h
  · unfold stepRun
    rw [hc]
    exact stepVariation_preserves st start h
  · unfold stepRun
    rw [hc]
    obtain ⟨ha, hs⟩ := stepHeader_arena_stack st t
    obtain ⟨hwf, hstk⟩ := h
    unfold PInv
    rw [ha, hs]
    exact ⟨hwf, hstk⟩
  · unfold stepRun
    rw [hc]
    exact stepComment_preserves st t h
  · obtain ⟨s, hs⟩ := stepMoveE_isOk st ctx rest mm
    have heq : stepRun st raw = s := by
      unfold stepRun
      rw [hc, hs]
    rw [heq]
    exact stepMoveE_preserves st ctx rest mm s hstack h hs

/-- The invariant holds after folding any line list. -/
theorem PInv_foldl : ∀ (lines : List (List Char)) (st : PState),
    PInv st → PInv (List.foldl stepRun st lines)
  | [], _, h => h
  | l :: ls, st, h => PInv_foldl ls (stepRun st l) (stepRun_preserves st l h)

/-- The invariant holds for every parse result. -/
theorem PInv_parseKif (text : String) : PInv (parseKifSt text) :=
  PInv_foldl _ _ PInv_init

/-- Following parent links upward reaches the parentless root line
(index 0) within the given fuel. -/
def reachesRoot (a : List VariationLine) : Nat → Nat → Bool
  | 0, _ => false
  | fuel + 1, i =>
    match a.get? i with
    | none => false
    | some li =>
      match li.parent with
      | none => i == 0
      | some p => reachesRoot a fuel p.1

/-- With strictly decreasing parent indices and the root the only
parentless line, every line's parent chain reaches the root. -/
theorem reachesRoot_of_wf (a : List VariationLine)
    (hpar : ∀ i li, a.get? i = some li → ∀ p ∈ li.parent, p.1 < i)
    (hroot0 : ∀ i li, a.get? i = some li → li.parent = none → i = 0) :
    ∀ i, i < a.length → ∀ fuel, i < fuel → reachesRoot a fuel i = true := by
  intro i
  induction i using Nat.strong_induction_on with
  | _ i ih =>
    intro hi fuel hfuel
    rcases fuel with _ | k
    · omega
    · rcases hg : a.get? i with _ | li
      · rw [List.get?_eq_none] at hg
        omega
      · unfold reachesRoot
        rw [hg]
        dsimp only []
        rcases hp : li.parent with _ | ⟨pid, c⟩
        · have := hroot0 i li hg hp
          subst this
          rfl
        · have hpi : pid < i := hpar i li hg (pid, c) hp
          exact ih pid hpi (lt_trans hpi hi) k (by omega)

/-- With strictly decreasing parent indices, `gatherMoves` recursion
has enough fuel from any line index. -/
theorem gatherF_isSome (a : List VariationLine)
    (hpar : ∀ i li, a.get? i = some li → ∀ p ∈ li.parent, p.1 < i) :
    ∀ i, i < a.length → ∀ fuel, i < fuel → ∀ upto,
      (gatherF a fuel i upto).isSome = true := by
  intro i
  induction i using Nat.strong_induction_on with
  | _ i ih =>
    intro hi fuel hfuel upto
    rcases fuel with _ | k
    · omega
    · rcases hg : a.get? i with _ | li
      · rw [List.get?_eq_none] at hg
        omega
      · unfold gatherF
        rw [hg]
        dsimp only []
        rcases hp : li.parent with _ | ⟨pid, c⟩
        · simp
        · have hpi : pid < i := hpar i li hg (pid, c) hp
          have hrec := ih pid hpi (lt_trans hpi hi) k (by omega) c
          obtain ⟨ps, hps⟩ := Option.isSome_iff_exists.mp hrec
          dsimp only []
          rw [hps]
          simp

/-- C10: for every tree `parseKif` returns, the arena is finite and
non-empty with the parentless root at index 0, every parent link points
to a strictly smaller index and every `variations`/`leadVariations`
link to a strictly larger index inside the arena — so the link graph is
acyclic — every line's parent chain reaches the root, and the recursion
of `gatherMoves` terminates (fuel `i + 1` suffices) for every line and
count. -/
theorem parse_tree_acyclic_and_gather_terminates (text : String) :
    ((parseKifSt text).arena ≠ [] ∧
      ∀ l0, (parseKifSt text).arena.get? 0 = some l0 → l0.parent = none) ∧
    (∀ i li, (parseKifSt text).arena.get? i = some li →
      (∀ p ∈ li.parent, p.1 < i) ∧
      (∀ mv ∈ li.moves, ∀ v ∈ mv.variations,
        i < v ∧ v < (parseKifSt text).arena.length) ∧
      (∀ v ∈ li.leadVariations,
        i < v ∧ v < (parseKifSt text).arena.length)) ∧
    (∀ i, i < (parseKifSt text).arena.length →
      reachesRoot (parseKifSt text).arena (i + 1) i = true) ∧
    (∀ i, i < (parseKifSt text).arena.length → ∀ upto,
      (gatherF (parseKifSt text).arena (i + 1) i upto).isSome = true) := by
  obtain ⟨⟨hne, hroot, hline⟩, hstk⟩ := PInv_parseKif text
  refine ⟨⟨hne, hroot⟩, ?_, ?_, ?_⟩
  · intro i li h
    obtain ⟨h1, h2, h3, h4⟩ := hline i li h
    exact ⟨h1, h3, h4⟩
  · intro i hi
    exact reachesRoot_of_wf _ (fun i li h p hp => (hline i li h).1 p hp)
      (fun i li h hn => (hline i li h).2.1 hn) i hi (i + 1) (Nat.lt_succ_self i)
  · intro i hi upto
    exact gatherF_isSome _ (fun i li h p hp => (hline i li h).1 p hp) i hi
      (i + 1) (Nat.lt_succ_self i) upto

/-- Witness for C10 on a two-line tree with one variation. -/
theorem parse_tree_acyclic_witness :
    (gatherF (parseKifSt "1 ７六歩(77)\n変化：1手\n1 ２六歩(27)").arena
      2 1 5).isSome = true ∧
    reachesRoot (parseKifSt "1 ７六歩(77)\n変化：1手\n1 ２六歩(27)").arena
      2 1 = true :=
  ⟨(parse_tree_acyclic_and_gather_terminates
      "1 ７六歩(77)\n変化：1手\n1 ２六歩(27)").2.2.2 1 (by decide) 5,
   (parse_tree_acyclic_and_gather_terminates
      "1 ７六歩(77)\n変化：1手\n1 ２六歩(27)").2.2.1 1 (by decide)⟩

/-! ### Symbolic line lemmas for the positive parser theorems -/

/-- `takeWhile`/`dropWhile` on a satisfying run followed by a failing
element. -/
theorem takeWhile_all_append (p : α → Bool) :
    ∀ (xs : List α) (c : α) (r : List α),
      (∀ x ∈ xs, p x = true) → p c = false →
      (xs ++ c :: r).takeWhile p = xs ∧ (xs ++ c :: r).dropWhile p = c :: r
  | [], c, r, _, hc => by
    rw [List.nil_append, List.takeWhile_cons_of_neg (by simp [hc]),
      List.dropWhile_cons_of_neg (by simp [hc])]
    exact ⟨rfl, rfl⟩
  | x :: xs, c, r, hall, hc => by
    have hx : p x = true := hall x (.head xs)
    have ih := takeWhile_all_append p xs c r (fun y hy => hall y (.tail x hy)) hc
    rw [List.cons_append, List.takeWhile_cons_of_pos hx,
      List.dropWhile_cons_of_pos hx, ih.1, ih.2]
    exact ⟨rfl, rfl⟩

/-- An ASCII digit is not whitespace and not any of the classifier
marker characters. -/
theorem digit_char_facts (c : Char) (h : isDigitA c = true) :
    jsWs c = false ∧ (c == '#') = false ∧ (c == '*') = false ∧
    ('-' == c) = false ∧ ('変' == c) = false ∧ (c == '：') = false := by
  rw [isDigitA, decide_eq_true_eq] at h
  refine ⟨?_, ?_, ?_, ?_, ?_, ?_⟩
  · rw [jsWs]
    apply decide_eq_false
    intro hP
    omega
  all_goals
    rw [beq_eq_false_iff_ne]
    intro e
    first
      | (rw [e] at h; exact absurd h (by decide))
      | (rw [← e] at h; exact absurd h (by decide))

/-- A list is a `isPrefixOf` itself followed by anything. -/
theorem isPrefixOf_self_append : ∀ (p t : List Char),
    (p.isPrefixOf (p ++ t)) = true
  | [], _ => by simp [List.isPrefixOf]
  | c :: p, t => by
    simp [List.isPrefixOf, isPrefixOf_self_append p t]

/-- `trimEnd` keeps a string ending in a non-whitespace character. -/
theorem trimEndL_snoc (xs : List Char) (c : Char) (hc : jsWs c = false) :
    trimEndL (xs ++ [c]) = xs ++ [c] := by
  unfold trimEndL
  rw [List.reverse_append, List.reverse_singleton, List.singleton_append,
    List.dropWhile_cons_of_neg (by simp [hc]), List.reverse_cons,
    List.reverse_reverse]

/-- `trimStart` keeps a string starting with a non-whitespace
character. -/
theorem trimStartL_cons (c : Char) (r : List Char) (hc : jsWs c = false) :
    trimStartL (c :: r) = c :: r :=
  List.dropWhile_cons_of_neg (by simp [hc])

/-- `stepRun` through a known `stepCore` result. -/
theorem stepRun_eq_of_core (st : PState) (raw : List Char) (s : PState)
    (h : stepCore st raw = .ok s) : stepRun st raw = s := by
  unfold stepRun
  rw [h]

/-- Classification dispatch: a line that defeats every earlier test and
matches `moveRe` lands in the move branch. -/
theorem stepCore_move_branch (st : PState) (raw : List Char) (ctx : Ctx)
    (rest : List Ctx) (mm : MoveMatch)
    (hempty : (trimL (trimEndL raw)).isEmpty = false)
    (hhash : startsWithCh '#' (trimL (trimEndL raw)) = false)
    (hdash : startsWithL "----".data (trimL (trimEndL raw)) = false)
    (hvar : variationMatch (trimL (trimEndL raw)) = none)
    (hsep : containsCh (trimL (trimEndL raw)) '：' = false)
    (hstar : startsWithCh '*' (trimL (trimEndL raw)) = false)
    (hmatch : matchMove (trimEndL raw) = some mm)
    (hstack : st.stack = ctx :: rest) :
    stepCore st raw = stepMoveE st ctx rest mm := by
  unfold stepCore
  dsimp only []
  rw [if_neg (by simp [hempty]), if_neg (by simp [hhash]),
    if_neg (by simp [hdash]), hvar]
  dsimp only []
  rw [if_neg (by simp [hsep]), if_neg (by simp [hstar]), hmatch, hstack]

/-- Classification dispatch: the header branch. -/
theorem stepCore_header_branch (st : PState) (raw : List Char)
    (hempty : (trimL (trimEndL raw)).isEmpty = false)
    (hhash : startsWithCh '#' (trimL (trimEndL raw)) = false)
    (hdash : startsWithL "----".data (trimL (trimEndL raw)) = false)
    (hvar : variationMatch (trimL (trimEndL raw)) = none)
    (hsep : containsCh (trimL (trimEndL raw)) '：' = true) :
    stepCore st raw = .ok (stepHeader st (trimL (trimEndL raw))) := by
  unfold stepCore
  dsimp only []
  rw [if_neg (by simp [hempty]), if_neg (by simp [hhash]),
    if_neg (by simp [hdash]), hvar]
  dsimp only []
  rw [if_pos (by simp [hsep])]

/-- Classification dispatch: the variation branch. -/
theorem stepCore_variation_branch (st : PState) (raw : List Char) (n : Nat)
    (hempty : (trimL (trimEndL raw)).isEmpty = false)
    (hhash : startsWithCh '#' (trimL (trimEndL raw)) = false)
    (hdash : startsWithL "----".data (trimL (trimEndL raw)) = false)
    (hvar : variationMatch (trimL (trimEndL raw)) = some n) :
    stepCore st raw = .ok (stepVariation st n) := by
  unfold stepCore
  dsimp only []
  rw [if_neg (by simp [hempty]), if_neg (by simp [hhash]),
    if_neg (by simp [hdash]), hvar]

/-! ### C4: the parser copies written move numbers verbatim -/

/-- A canonical well-formed move line whose move number is written with
the digit string `ds`: `"<ds> ７六歩(77)"`. -/
def mkMoveLine (ds : List Char) : List Char := ds ++ " ７六歩(77)".data

/-- The move-line regex match of `mkMoveLine ds`. -/
def mmOfNum (n : Nat) : MoveMatch :=
  ⟨n, .digits '７' '六', "歩".data, false, some ('7', '7'), none⟩

/-- The parsed move of `mkMoveLine ds`. -/
def mvOfNum (n : Nat) : ParsedMove :=
  ⟨n, ⟨7, 6⟩, some ⟨7, 7⟩, some fu, "歩".data, false, false, false, none,
    none, some "７六".data, []⟩

/-- Trimming leaves `mkMoveLine ds` untouched. -/
theorem mkMoveLine_trim (ds : List Char) (hne : ds ≠ [])
    (hds : ∀ c ∈ ds, isDigitA c = true) :
    trimEndL (mkMoveLine ds) = mkMoveLine ds ∧
    trimL (trimEndL (mkMoveLine ds)) = mkMoveLine ds := by
  have h0 : " ７六歩(77)".data = " ７六歩(77".data ++ [')'] := by decide
  have h1 : mkMoveLine ds = (ds ++ " ７六歩(77".data) ++ [')'] := by
    rw [mkMoveLine, h0, List.append_assoc]
  have hEnd : trimEndL (mkMoveLine ds) = mkMoveLine ds := by
    rw [h1, trimEndL_snoc _ _ (by decide)]
  refine ⟨hEnd, ?_⟩
  rw [hEnd]
  unfold trimL
  rw [hEnd]
  rcases ds with _ | ⟨d, ds'⟩
  · exact absurd rfl hne
  · have hd := hds d (.head _)
    rw [show mkMoveLine (d :: ds') = d :: (ds' ++ " ７六歩(77)".data) from
      by rw [mkMoveLine, List.cons_append]]
    exact trimStartL_cons d _ (digit_char_facts d hd).1

/-- `mkMoveLine ds` defeats every classifier test before the move
branch. -/
theorem mkMoveLine_guards (ds : List Char) (hne : ds ≠ [])
    (hds : ∀ c ∈ ds, isDigitA c = true) :
    (trimL (trimEndL (mkMoveLine ds))).isEmpty = false ∧
    startsWithCh '#' (trimL (trimEndL (mkMoveLine ds))) = false ∧
    startsWithL "----".data (trimL (trimEndL (mkMoveLine ds))) = false ∧
    variationMatch (trimL (trimEndL (mkMoveLine ds))) = none ∧
    containsCh (trimL (trimEndL (mkMoveLine ds))) '：' = false ∧
    startsWithCh '*' (trimL (trimEndL (mkMoveLine ds))) = false := by
  rw [(mkMoveLine_trim ds hne hds).2]
  rcases ds with _ | ⟨d, ds'⟩
  · exact absurd rfl hne
  · have hd := hds d (.head _)
    obtain ⟨hw, hhash, hstar, hdash, hhen, hcolon⟩ := digit_char_facts d hd
    rw [show mkMoveLine (d :: ds') = d :: (ds' ++ " ７六歩(77)".data) from
      by rw [mkMoveLine, List.cons_append]]
    have h1 : (ds'.any fun x => x == '：') = false := by
      rw [List.any_eq_false]
      intro c hc
      simp [(digit_char_facts c (hds c (.tail d hc))).2.2.2.2.2]
    have h2 : (" ７六歩(77)".data.any fun x => x == '：') = false := by decide
    refine ⟨rfl, ?_, ?_, ?_, ?_, ?_⟩
    · simpa [startsWithCh] using hhash
    · simp [startsWithL, List.isPrefixOf, hdash]
    · simp [variationMatch, startsWithL, List.isPrefixOf, hhen]
    · simp [containsCh, List.any_cons, List.any_append, hcolon, h1, h2]
    · simpa [startsWithCh] using hstar

/-- `moveRe` on `mkMoveLine ds`: the number is the digit run's value. -/
theorem matchMove_mkMoveLine (ds : List Char) (hne : ds ≠ [])
    (hds : ∀ c ∈ ds, isDigitA c = true) :
    matchMove (mkMoveLine ds) = some (mmOfNum (digitsVal ds)) := by
  unfold matchMove mkMoveLine
  dsimp only []
  rcases ds with _ | ⟨d, ds'⟩
  · exact absurd rfl hne
  · have hd := hds d (.head _)
    have hdw : jsWs d = false := (digit_char_facts d hd).1
    rw [List.cons_append, List.dropWhile_cons_of_neg (by simp [hdw])]
    have htk1 : List.takeWhile isDigitA
        (d :: (ds' ++ [' ', '７', '六', '歩', '(', '7', '7', ')'])) =
        d :: ds' :=
      (takeWhile_all_append isDigitA (d :: ds') ' '
        ['７', '六', '歩', '(', '7', '7', ')'] hds (by decide)).1
    rw [htk1]
    have hdr : List.drop (d :: ds').length
        (d :: (ds' ++ [' ', '７', '六', '歩', '(', '7', '7', ')'])) =
        [' ', '７', '六', '歩', '(', '7', '7', ')'] :=
      List.drop_left (d :: ds') [' ', '７', '六', '歩', '(', '7', '7', ')']
    rw [hdr]
    rw [if_neg (by simp)]
    rfl

/-- One `mkMoveLine` iteration: the move is appended to the top
context's line with exactly the written number, and `prevMove` is
rebound to it. -/
theorem stepRun_mkMoveLine (st : PState) (ctx : Ctx) (rest : List Ctx)
    (hstack : st.stack = ctx :: rest) (ds : List Char) (hne : ds ≠ [])
    (hds : ∀ c ∈ ds, isDigitA c = true) :
    stepRun st (mkMoveLine ds) =
      { st with
        arena := updAt st.arena ctx.lineId fun ln =>
          { ln with moves := ln.moves ++ [mvOfNum (digitsVal ds)] }
        stack := ⟨ctx.lineId,
          some (ctx.lineId, lineMovesLen st.arena ctx.lineId)⟩ :: rest } := by
  apply stepRun_eq_of_core
  obtain ⟨g1, g2, g3, g4, g5, g6⟩ := mkMoveLine_guards ds hne hds
  rw [stepCore_move_branch st (mkMoveLine ds) ctx rest
    (mmOfNum (digitsVal ds)) g1 g2 g3 g4 g5 g6
    (by rw [(mkMoveLine_trim ds hne hds).1]
        exact matchMove_mkMoveLine ds hne hds)
    hstack]
  rfl

/-- Folding a list of canonical move lines appends one move per line to
the root, each carrying its written number. -/
theorem foldl_mkMoveLines :
    ∀ (dss : List (List Char)) (hdr : List (List Char × List Char))
      (ms : List ParsedMove) (pm : Option (Nat × Nat)),
      (∀ ds ∈ dss, ds ≠ [] ∧ ∀ c ∈ ds, isDigitA c = true) →
      ∃ pm', List.foldl stepRun ⟨hdr, [⟨1, ms, none, []⟩], [⟨0, pm⟩]⟩
          (dss.map mkMoveLine) =
        ⟨hdr, [⟨1, ms ++ dss.map (fun ds => mvOfNum (digitsVal ds)), none, []⟩],
          [⟨0, pm'⟩]⟩
  | [], hdr, ms, pm, _ => ⟨pm, by simp⟩
  | ds :: dss, hdr, ms, pm, h => by
    obtain ⟨hne, hds⟩ := h ds (.head _)
    have hstep := stepRun_mkMoveLine ⟨hdr, [⟨1, ms, none, []⟩], [⟨0, pm⟩]⟩
      ⟨0, pm⟩ [] rfl ds hne hds
    rw [List.map_cons, List.foldl_cons, hstep]
    obtain ⟨pm', hrec⟩ := foldl_mkMoveLines dss hdr
      (ms ++ [mvOfNum (digitsVal ds)]) (some (0, ms.length))
      (fun x hx => h x (.tail _ hx))
    refine ⟨pm', ?_⟩
    rw [List.append_assoc] at hrec
    exact hrec

/-- C4 (amended): `parseKif` copies each accepted move line's written
move number into `moves[i].n` verbatim and never renumbers: parsing the
canonical move lines written with any digit strings `dss` yields a root
line whose move numbers are exactly the written values, in document
order (`startMoveNumber` stays `1`).  Contiguity
`moves[i].n = startMoveNumber + i` therefore holds exactly when the
input numbers are themselves contiguous — the counterexample shows it
fails otherwise. -/
theorem parser_copies_written_move_numbers (dss : List (List Char))
    (h : ∀ ds ∈ dss, ds ≠ [] ∧ ∀ c ∈ ds, isDigitA c = true) :
    (rootLine (parseKifLP (dss.map mkMoveLine)).arena).moves.map (·.n) =
      dss.map digitsVal ∧
    (rootLine (parseKifLP (dss.map mkMoveLine)).arena).startMoveNumber = 1 := by
  obtain ⟨pm', hfold⟩ := foldl_mkMoveLines dss [] [] none h
  have hfold' : parseKifLP (dss.map mkMoveLine) =
      ⟨[], [⟨1, [] ++ dss.map (fun ds => mvOfNum (digitsVal ds)), none, []⟩],
        [⟨0, pm'⟩]⟩ := hfold
  rw [hfold']
  constructor
  · simp [rootLine, List.map_map, mvOfNum]
  · rfl

/-- Witness for the C4 amended theorem at written numbers `1` and `5`. -/
theorem parser_copies_written_move_numbers_witness :
    (rootLine (parseKifLP (["1".data, "5".data].map mkMoveLine)).arena).moves.map
      (·.n) = ["1".data, "5".data].map digitsVal :=
  (parser_copies_written_move_numbers ["1".data, "5".data] (by decide)).1

/-! ### C8: unanchored variation markers attach to the root -/

/-- A variation marker line declaring a start at the move number
written with the digit string `ds`: `"変化：<ds>手"`. -/
def mkVarLine (ds : List Char) : List Char :=
  "変化：".data ++ ds ++ "手".data

/-- The anchor search finds nothing when no stack context's line has a
move numbered `t`. -/
theorem anchorSearch_none (a : List VariationLine) (t : Nat) :
    ∀ stack : List Ctx,
      (∀ ctx ∈ stack, ∀ li, a.get? ctx.lineId = some li →
        ∀ mv ∈ li.moves, ¬ mv.n = t) →
      anchorSearch a t stack = none
  | [], _ => rfl
  | ctx :: rest, h => by
    unfold anchorSearch
    have hfind : ((((a.get? ctx.lineId).map (·.moves)).getD []).findIdx?
        fun m => m.n == t) = none := by
      rcases hg : a.get? ctx.lineId with _ | li
      · rfl
      · show List.findIdx? (fun m => m.n == t) li.moves = none
        rw [List.findIdx?_eq_none_iff]
        intro mv hmv
        simpa using h ctx (.head rest) li hg mv hmv
    rw [hfind]
    exact anchorSearch_none a t rest fun c hc => h c (.tail _ hc)

/-- Trimming leaves `mkVarLine ds` untouched, and `variationRe` matches
it with the written number. -/
theorem mkVarLine_facts (ds : List Char) (hne : ds ≠ [])
    (hds : ∀ c ∈ ds, isDigitA c = true) :
    trimL (trimEndL (mkVarLine ds)) = mkVarLine ds ∧
    variationMatch (mkVarLine ds) = some (digitsVal ds) := by
  have h1 : mkVarLine ds = ("変化：".data ++ ds) ++ ['手'] := by
    rw [mkVarLine, List.append_assoc]
  have hEnd : trimEndL (mkVarLine ds) = mkVarLine ds := by
    rw [h1, trimEndL_snoc _ _ (by decide)]
  have hcons : mkVarLine ds = '変' :: ('化' :: '：' :: (ds ++ ['手'])) := by
    rw [mkVarLine, List.append_assoc]
    rfl
  constructor
  · rw [hEnd]
    unfold trimL
    rw [hEnd, hcons]
    exact trimStartL_cons _ _ (by decide)
  · unfold variationMatch
    rw [if_pos ?hpre]
    case hpre =>
      rw [mkVarLine, List.append_assoc]
      exact isPrefixOf_self_append "変化：".data (ds ++ "手".data)
    have hdrop : List.drop 3 (mkVarLine ds) = ds ++ ['手'] := by
      rw [hcons]
      rfl
    rw [hdrop]
    dsimp only []
    have htk := takeWhile_all_append isDigitA ds '手' [] hds (by decide)
    rw [htk.1, if_neg (by simp [hne]), List.drop_left]
    rfl

/-- C8: a variation marker declaring a start at move `N ≥ 2` (written
with digits `ds`) when no line on the context stack contains a move
numbered `N - 1` attaches the new `VariationLine` to the *root* line's
`leadVariations` with `parent = {line: root, anchorMoveCount: 0}`, pops
the stack to the root context, and pushes a context for the new line,
into which subsequent lines are parsed — the parse is not aborted. -/
theorem unanchored_variation_attaches_to_root (st : PState) (ds : List Char)
    (hne : ds ≠ []) (hds : ∀ c ∈ ds, isDigitA c = true)
    (hN : 2 ≤ digitsVal ds) (c0 : Ctx) (hlast : st.stack.getLast? = some c0)
    (hmiss : ∀ ctx ∈ st.stack, ∀ li, st.arena.get? ctx.lineId = some li →
      ∀ mv ∈ li.moves, ¬ mv.n = digitsVal ds - 1) :
    stepRun st (mkVarLine ds) =
      { header := st.header
        arena := (updAt st.arena 0 fun ln =>
          { ln with leadVariations :=
              ln.leadVariations ++ [st.arena.length] }) ++
          [⟨digitsVal ds, [], some (0, 0), []⟩]
        stack := ⟨st.arena.length, none⟩ :: [c0] } := by
  apply stepRun_eq_of_core
  obtain ⟨htrim, hvm⟩ := mkVarLine_facts ds hne hds
  rw [stepCore_variation_branch st (mkVarLine ds) (digitsVal ds)
    (by rw [htrim]; rfl) (by rw [htrim]; rfl) (by rw [htrim]; rfl)
    (by rw [htrim]; exact hvm)]
  unfold stepVariation
  rw [if_neg (by omega), anchorSearch_none st.arena (digitsVal ds - 1)
    st.stack hmiss]
  dsimp only []
  rw [hlast]

/-- Witness for the C8 theorem: `"変化：3手"` with no move 2 anywhere
on the (initial) stack. -/
theorem unanchored_variation_witness :
    stepRun initPState (mkVarLine "3".data) =
      { header := []
        arena := (updAt initPState.arena 0 fun ln =>
          { ln with leadVariations :=
              ln.leadVariations ++ [initPState.arena.length] }) ++
          [⟨digitsVal "3".data, [], some (0, 0), []⟩]
        stack := ⟨initPState.arena.length, none⟩ :: [⟨0, none⟩] } :=
  unanchored_variation_attaches_to_root initPState "3".data (by decide)
    (by decide) (by decide) ⟨0, none⟩ (by decide) (by decide)

/-! ### C5: header key/value semantics -/

/-- A separator-free tail keeps the split in one segment. -/
theorem splitOnChAux_no_sep (c : Char) :
    ∀ (t acc : List Char), (∀ x ∈ t, (x == c) = false) →
      splitOnChAux c acc t = [acc.reverse ++ t]
  | [], acc, _ => by simp [splitOnChAux]
  | x :: r, acc, h => by
    unfold splitOnChAux
    rw [if_neg (by simpa using h x (.head r))]
    rw [splitOnChAux_no_sep c r (x :: acc) fun y hy => h y (.tail x hy)]
    simp

/-- A split with at least two segments certifies the separator occurs. -/
theorem containsCh_of_split (t : List Char) (c : Char) (k v : List Char)
    (rest2 : List (List Char)) (h : splitOnCh c t = k :: v :: rest2) :
    containsCh t c = true := by
  rcases hc : containsCh t c with _ | _
  · have : splitOnCh c t = [t] := by
      unfold splitOnCh
      rw [splitOnChAux_no_sep c t [] ?hall]
      · rfl
      case hall =>
        intro x hx
        rw [containsCh] at hc
        have := List.any_eq_false.mp hc x hx
        simpa using this
    rw [this] at h
    injection h with _ h
    cases h
  · rfl

/-- `headerLookup` after `setHeader` finds the just-stored value,
whatever was stored before — JS object overwrite semantics, i.e. the
last occurrence of a key wins. -/
theorem headerLookup_set :
    ∀ (h : List (List Char × List Char)) (k v : List Char),
      headerLookup (setHeader h k v) k = some v := by
  have happ : ∀ (h : List (List Char × List Char)) (k v : List Char),
      (∀ p ∈ h, (p.1 == k) = false) →
      headerLookup (h ++ [(k, v)]) k = some v := by
    intro h
    induction h with
    | nil =>
      intro k v _
      rw [List.nil_append, headerLookup,
        List.find?_cons_of_pos _ (by simp)]
      rfl
    | cons p r ih =>
      intro k v hall
      rw [List.cons_append, headerLookup,
        List.find?_cons_of_neg _ (by simp [hall p (.head r)])]
      exact ih k v fun q hq => hall q (.tail p hq)
  have hmap : ∀ (h : List (List Char × List Char)) (k v : List Char),
      h.any (fun p => p.1 == k) = true →
      headerLookup (h.map fun p => if p.1 == k then (k, v) else p) k =
        some v := by
    intro h
    induction h with
    | nil =>
      intro k v hany
      simp at hany
    | cons p r ih =>
      intro k v hany
      rcases hp : (p.1 == k) with _ | _
      · rw [List.map_cons, if_neg (by simp [hp]), headerLookup,
          List.find?_cons_of_neg _ (by simp [hp])]
        refine ih k v ?_
        rw [List.any_cons, hp, Bool.false_or] at hany
        exact hany
      · rw [List.map_cons, if_pos (by simp [hp]), headerLookup,
          List.find?_cons_of_pos _ (by simp)]
        rfl
  intro h k v
  unfold setHeader
  rcases hany : h.any (fun p => p.1 == k) with _ | _
  · rw [if_neg (by simp [hany])]
    refine happ h k v fun p hp => ?_
    have := List.any_eq_false.mp hany p hp
    simpa using this
  · rw [if_pos (by simp [hany])]
    exact hmap h k v hany

/-- The header branch stores trimmed first segment ↦ trimmed second
segment when both raw segments are non-empty. -/
theorem stepHeader_sets (st : PState) (t k v : List Char)
    (rest2 : List (List Char)) (hsplit : splitOnCh '：' t = k :: v :: rest2)
    (hk : k ≠ []) (hv : v ≠ []) :
    stepHeader st t =
      { st with header := setHeader st.header (trimL k) (trimL v) } := by
  unfold stepHeader
  rw [hsplit]
  dsimp only []
  rw [if_neg (by simp [hk, hv])]

/-- C5 (amended): a line classified as a header line stores the trimmed
text before the first separator as the key and the trimmed segment
strictly *between the first and second* separators as the value — any
content after a second separator is discarded — provided both raw
segments are non-empty; and since storing overwrites the key, the last
occurrence of a key in the document wins: after this line is processed,
the key maps to this line's value no matter what any earlier line
stored. -/
theorem header_key_value_and_last_wins (l k v : List Char)
    (rest2 : List (List Char))
    (hempty : (trimL (trimEndL l)).isEmpty = false)
    (hhash : startsWithCh '#' (trimL (trimEndL l)) = false)
    (hdash : startsWithL "----".data (trimL (trimEndL l)) = false)
    (hvar : variationMatch (trimL (trimEndL l)) = none)
    (hsplit : splitOnCh '：' (trimL (trimEndL l)) = k :: v :: rest2)
    (hk : k ≠ []) (hv : v ≠ []) :
    (∀ st : PState, stepRun st l =
      { st with header := setHeader st.header (trimL k) (trimL v) }) ∧
    headerLookup (parseKifLP [l]).header (trimL k) = some (trimL v) ∧
    (∀ st : PState,
      headerLookup (stepRun st l).header (trimL k) = some (trimL v)) := by
  have hsep : containsCh (trimL (trimEndL l)) '：' = true :=
    containsCh_of_split _ _ k v rest2 hsplit
  have hstep : ∀ st : PState, stepRun st l =
      { st with header := setHeader st.header (trimL k) (trimL v) } := by
    intro st
    apply stepRun_eq_of_core
    rw [stepCore_header_branch st l hempty hhash hdash hvar hsep,
      stepHeader_sets st _ k v rest2 hsplit hk hv]
  refine ⟨hstep, ?_, fun st => ?_⟩
  · show headerLookup (stepRun initPState l).header (trimL k) = some (trimL v)
    rw [hstep initPState]
    exact headerLookup_set initPState.header (trimL k) (trimL v)
  · rw [hstep st]
    exact headerLookup_set st.header (trimL k) (trimL v)

/-- Witness for the C5 amended theorem on `"棋戦：a：b"`. -/
theorem header_key_value_and_last_wins_witness :
    headerLookup (parseKifLP ["棋戦：a：b".data]).header
      (trimL "棋戦".data) = some (trimL "a".data) :=
  (header_key_value_and_last_wins "棋戦：a：b".data "棋戦".data "a".data
    ["b".data] (by decide) (by decide) (by decide) (by decide) (by decide)
    (by decide) (by decide)).2.1

/-- C9: `demote (promote k) = k` on every promotable base kind,
`promote`/`demote` are the identity on the unpaired kinds, and
`promote (demote k) = k` fails on every promotable base kind (so it
does not hold for every kind). -/
theorem promote_demote_algebra :
    (promotableBase.all fun k => demoteKind (promoteKind k) == k) = true ∧
    (unpairedKinds.all fun k =>
      (promoteKind k == k) && (demoteKind k == k)) = true ∧
    (promotableBase.all fun k => promoteKind (demoteKind k) != k) = true := by
  decide
